import Mathlib

/-!
A shallow embedding of `s3_mpart_upload.go` (s3_multipart_upload).

The development models the planning loop, the result collection and the
completion manifest of the multipart uploader and proves properties of them.

* Go `int64` values are integers in `[-2^63, 2^63)`; arithmetic wraps modulo
  `2^64` (`wrap64`), division truncates toward zero.
* Go `int` is taken to be 64 bits wide, so `int(partNumber)` is the identity.
* Go strings are modelled by Lean strings.
* Network, file system and scheduler behaviour are explicit inputs; memory
  limits are not modelled.
* Of `main` the part from the call of performMultipartUpload on is modelled, of
  completeMultipartUpload the sorting and the construction of the request body.
-/

namespace S3Mpart

/-! ## int64 arithmetic -/

/-- Smallest `int64` value. -/
def minInt64 : Int := -9223372036854775808

/-- Largest `int64` value. -/
def maxInt64 : Int := 9223372036854775807

/-- Predicate: the integer is representable as an `int64`. -/
def IsInt64 (x : Int) : Prop := minInt64 ≤ x ∧ x ≤ maxInt64

instance (x : Int) : Decidable (IsInt64 x) := by
  unfold IsInt64; exact inferInstance

/-- Two's complement reduction of an integer to the `int64` range. -/
def wrap64 (x : Int) : Int := (x + 9223372036854775808) % 18446744073709551616 - 9223372036854775808

/-- Go `a + b` on `int64`. -/
def add64 (a b : Int) : Int := wrap64 (a + b)

/-- Go `a - b` on `int64`. -/
def sub64 (a b : Int) : Int := wrap64 (a - b)

/-- Go `a * b` on `int64`. -/
def mul64 (a b : Int) : Int := wrap64 (a * b)

/-- Go `a / b` on `int64`: the quotient truncated toward zero. -/
def div64 (a b : Int) : Int := wrap64 (Int.tdiv a b)

/-! ## Planning (performMultipartUpload, lines 143-161) -/

/-- The constant `partSize = 5 * 1024 * 1024 * 1024` of performMultipartUpload. -/
def partSize : Int := 5 * 1024 * 1024 * 1024

/-- The `(partNumber, start, end)` triple handed to one goroutine. -/
structure Seg where
  partNumber : Int
  start : Int
  end_ : Int
  deriving DecidableEq, Repr

/-- The expression `numParts := (fileSize + partSize - 1) / partSize`, with the
part size as a parameter. -/
def numParts (fileSize pSize : Int) : Int :=
  div64 (sub64 (add64 fileSize pSize) 1) pSize

/-- The body of one iteration of the planning loop for loop counter `i`:
`partNumber := i + 1`, `start := i * partSize`, `end := (i + 1) * partSize`,
`if end > fileSize { end = fileSize }`. -/
def planStep (fileSize pSize i : Int) : Seg :=
  let partNumber := add64 i 1
  let start := mul64 i pSize
  let end0 := mul64 (add64 i 1) pSize
  let end1 := if end0 > fileSize then fileSize else end0
  { partNumber := partNumber, start := start, end_ := end1 }

/-- The loop `for i := int64(0); i < numParts; i++`, started at counter `i`,
collecting the triple of every iteration. The first argument bounds the number
of iterations. -/
def planLoop (fileSize pSize n : Int) : Nat → Int → List Seg
  | 0, _ => []
  | fuel + 1, i =>
    if i < n then planStep fileSize pSize i :: planLoop fileSize pSize n fuel (add64 i 1)
    else []

/-- The triples computed by the planning loop of performMultipartUpload. The
loop counter starts at `0` and stops at `numParts`, so `numParts` iterations
are enough. -/
def planParts (fileSize pSize : Int) : List Seg :=
  planLoop fileSize pSize (numParts fileSize pSize) (numParts fileSize pSize).toNat 0

/-! ## Formatting (`%d` of fmt.Sprintf) -/

/-- Decimal digits of a natural number, most significant first. The first
argument bounds the number of digits. -/
def natDigits : Nat → Nat → List Char
  | 0, _ => []
  | fuel + 1, n =>
    if n < 10 then [Nat.digitChar n]
    else natDigits fuel (n / 10) ++ [Nat.digitChar (n % 10)]

/-- The verb `%d` applied to a natural number. -/
def fmtNat (n : Nat) : List Char := natDigits (n + 1) n

/-- The verb `%d` applied to an integer: a minus sign for negative values,
then the decimal digits of the magnitude. -/
def fmtInt : Int → String
  | Int.ofNat n => String.mk (fmtNat n)
  | Int.negSucc n => String.mk ('-' :: fmtNat (n + 1))

/-! ## uploadPart and generatePresignedURL -/

/-- What uploadPart observes of the HTTP response: the status code, the value
of `resp.Header.Get("ETag")` (empty when the header is absent) and the result
of `ioutil.ReadAll(resp.Body)`. -/
structure Response where
  statusCode : Int
  etagHeader : String
  body : Except String String

/-- The results of the collaborators that uploadPart calls, in call order. -/
structure UploadEnv where
  presignNewRequestErr : Option String
  presignSignErr : Option String
  presignedURL : String
  newRequestErr : Option String
  signErr : Option String
  send : Except String Response

/-- The function generatePresignedURL: it fails when request creation or
signing fails and otherwise returns the URL of the signed request. -/
def generatePresignedURL (env : UploadEnv) : Except String String :=
  match env.presignNewRequestErr with
  | some e => .error e
  | none =>
    match env.presignSignErr with
    | some e => .error e
    | none => .ok env.presignedURL

/-- The function uploadPart, given the results of its collaborators. -/
def uploadPart (env : UploadEnv) (partNumber : Int) : Except String String :=
  match generatePresignedURL env with
  | .error e => .error ("error creating presigned URL for HTTP request: " ++ e)
  | .ok _ =>
    match env.newRequestErr with
    | some e => .error ("error creating HTTP request: " ++ e)
    | none =>
      match env.signErr with
      | some e => .error ("error signing HTTP request: " ++ e)
      | none =>
        match env.send with
        | .error e => .error ("error sending HTTP request: " ++ e)
        | .ok resp =>
          if resp.statusCode ≠ 200 then
            match resp.body with
            | .error e => .error ("error reading response body: " ++ e)
            | .ok body =>
              .error ("error uploading part " ++ fmtInt partNumber ++ ": " ++ body)
          else
            let eTag := resp.etagHeader
            if eTag = "" then .error "error: ETag not found in response header"
            else .ok eTag

/-! ## performMultipartUpload: dispatch, collection and the final check -/

/-- The struct `Part`. -/
structure Part where
  Number : Int
  ETag : String
  deriving DecidableEq, Repr

/-- What one goroutine observes: the error of `file.ReadAt`, if any, and the
collaborators of its uploadPart call. -/
structure PartEnv where
  readErr : Option String
  upload : UploadEnv

/-- The goroutine started for one triple: it publishes a `Part` on the channel
only when the read and the upload both succeed. -/
def worker (env : PartEnv) (seg : Seg) : Option Part :=
  match env.readErr with
  | some _ => none
  | none =>
    match uploadPart env.upload seg.partNumber with
    | .error _ => none
    | .ok eTag => some { Number := seg.partNumber, ETag := eTag }

/-- The parts sent to the channel by the goroutines of the given triples,
listed in dispatch order. The environment is indexed by part number. -/
def published (segs : List Seg) (env : Int → PartEnv) : List Part :=
  segs.filterMap (fun seg => worker (env seg.partNumber) seg)

/-- What the file system reports: the error of `os.Open`, the error of
`file.Stat` and the size returned by `fileInfo.Size()`. -/
structure FileEnv where
  openErr : Option String
  statErr : Option String
  size : Int

/-- How a call of performMultipartUpload ends: a run-time panic, or a return
with the pair `([]Part, error)`. -/
inductive Outcome where
  | panicked (msg : String)
  | returned (r : Except String (List Part))

/-- The order in which the channel delivers the published parts is some
permutation of the dispatch order. -/
def Arrival (file : FileEnv) (env : Int → PartEnv) (arrived : List Part) : Prop :=
  arrived.Perm (published (planParts file.size partSize) env)

instance (file : FileEnv) (env : Int → PartEnv) (arrived : List Part) :
    Decidable (Arrival file env arrived) := by
  unfold Arrival; exact inferInstance

/-- The function performMultipartUpload, given the file system results and the
parts in the order the channel delivers them. `make(chan Part, numParts)`
panics on a negative capacity. The collection loop appends every received part,
in order, to a nil slice. -/
def performMultipartUpload (file : FileEnv) (arrived : List Part) : Outcome :=
  match file.openErr with
  | some e => .returned (.error ("error opening file: " ++ e))
  | none =>
    match file.statErr with
    | some e => .returned (.error ("error getting file info: " ++ e))
    | none =>
      let fileSize := file.size
      let n := numParts fileSize partSize
      if n < 0 then .panicked "makechan: size out of range"
      else
        let parts := arrived.foldl (fun acc part => acc ++ [part]) []
        if (parts.length : Int) ≠ n then
          .returned (.error ("error: expected " ++ fmtInt n ++ " parts, but only uploaded "
            ++ fmtInt parts.length ++ " parts"))
        else .returned (.ok parts)

/-! ## completeMultipartUpload: sorting and the request body -/

/-- The call `sort.Slice(parts, less)` with `less` comparing `Number`: the
parts in ascending order of `Number`. The library sort is not stable, so the
model fixes the result only up to the order of parts with equal `Number`; the
parts a successful upload collects have distinct numbers, and then the sorted
arrangement is unique. -/
def sortSlice (parts : List Part) : List Part :=
  parts.insertionSort (fun a b => a.Number ≤ b.Number)

/-- The text appended for one part:
`<Part><PartNumber>%d</PartNumber><ETag>%s</ETag></Part>`. -/
def partEntry (part : Part) : String :=
  "<Part><PartNumber>" ++ fmtInt part.Number ++ "</PartNumber><ETag>" ++ part.ETag
    ++ "</ETag></Part>"

/-- The string `xmlBody` built by the loop over the sorted parts. -/
def xmlBody (parts : List Part) : String :=
  parts.foldl (fun acc part => acc ++ partEntry part) "<CompleteMultipartUpload>"
    ++ "</CompleteMultipartUpload>"

/-- The request body that completeMultipartUpload sends for the parts it is
given: it sorts them and serialises the sorted list. -/
def completeMultipartUpload (parts : List Part) : String :=
  xmlBody (sortSlice parts)

/-- The ordered `(Number, ETag)` pairs of the manifest built by
completeMultipartUpload. -/
def manifest (parts : List Part) : List (Int × String) :=
  (sortSlice parts).map (fun part => (part.Number, part.ETag))

/-! ## main, from the call of performMultipartUpload on (lines 110-121) -/

/-- How main ends once the upload session is open. -/
inductive MainEnd where
  | crashed
  | uploadFailed (msg : String)
  | completeCalled (parts : List Part)

/-- The tail of main: it calls completeMultipartUpload only with the parts of
a successful performMultipartUpload. -/
def main (file : FileEnv) (arrived : List Part) : MainEnd :=
  match performMultipartUpload file arrived with
  | .panicked _ => .crashed
  | .returned (.error e) => .uploadFailed ("Error performing multipart upload: " ++ e)
  | .returned (.ok parts) => .completeCalled parts

/-! ## Reading a completion body back as XML (specification side)

The reader covers the part of XML that completion bodies use: elements without
attributes, character data with the five predefined entity references, line
ends normalised to a line feed, and white space between elements. Comments,
CDATA sections, processing instructions and numeric character references are
not read. -/

/-- The start tag of the document element. -/
def bodyOpen : List Char := "<CompleteMultipartUpload>".toList

/-- The end tag of the document element. -/
def bodyClose : List Char := "</CompleteMultipartUpload>".toList

/-- The start tag of an entry. -/
def partOpen : List Char := "<Part>".toList

/-- The end tag of an entry. -/
def partClose : List Char := "</Part>".toList

/-- The start tag of a part number. -/
def numberOpen : List Char := "<PartNumber>".toList

/-- The end tag of a part number. -/
def numberClose : List Char := "</PartNumber>".toList

/-- The start tag of an ETag. -/
def etagOpen : List Char := "<ETag>".toList

/-- The end tag of an ETag. -/
def etagClose : List Char := "</ETag>".toList

/-- XML white space: space, tab, line feed, carriage return. -/
def isXmlSpace (c : Char) : Bool :=
  c.toNat == 32 || c.toNat == 9 || c.toNat == 10 || c.toNat == 13

/-- The characters XML 1.0 allows in a document: tab, line feed, carriage
return and every character from U+0020 on except U+FFFE and U+FFFF. -/
def isXmlChar (c : Char) : Bool :=
  c.toNat == 9 || c.toNat == 10 || c.toNat == 13 ||
    (decide (32 ≤ c.toNat) && c.toNat != 65534 && c.toNat != 65535)

/-- Drop leading white space. -/
def skipSpace (s : List Char) : List Char := s.dropWhile isXmlSpace

/-- Consume the expected text at the front of the input, or fail. -/
def expect : List Char → List Char → Option (List Char)
  | [], s => some s
  | _ :: _, [] => none
  | c :: cs, d :: ds => if c = d then expect cs ds else none

/-- Read the name of a predefined entity and its semicolon, after the `&`:
`lt`, `gt`, `amp`, `quot` or `apos`. -/
def readEntity (s : List Char) : Option (Char × List Char) :=
  match expect "lt;".toList s with
  | some rest => some ('<', rest)
  | none =>
    match expect "gt;".toList s with
    | some rest => some ('>', rest)
    | none =>
      match expect "amp;".toList s with
      | some rest => some ('&', rest)
      | none =>
        match expect "quot;".toList s with
        | some rest => some (Char.ofNat 34, rest)
        | none =>
          match expect "apos;".toList s with
          | some rest => some (Char.ofNat 39, rest)
          | none => none

/-- Read the character data of an element up to the next `<`; the text read
and the rest of the input are returned. Entity references are replaced by their
characters, a carriage return (with a following line feed) becomes a line feed,
and the text is refused when it holds a character XML does not allow, an `&`
that starts no predefined entity, or the sequence `]]>`. The first argument
bounds the number of characters read, the second counts the `]` characters
just before the current position (at most 2 matter). -/
def readText : Nat → Nat → List Char → Option (List Char × List Char)
  | 0, _, _ => none
  | _ + 1, _, [] => none
  | fuel + 1, b, c :: rest =>
    if c = '<' then some ([], c :: rest)
    else if c = '&' then
      match readEntity rest with
      | none => none
      | some (d, rest1) => (readText fuel 0 rest1).map (fun r => (d :: r.1, r.2))
    else if c.toNat = 13 then
      (readText fuel 0
          (match rest with
           | [] => []
           | d :: rest1 => if d.toNat = 10 then rest1 else d :: rest1)).map
        (fun r => (Char.ofNat 10 :: r.1, r.2))
    else if c = '>' ∧ 2 ≤ b then none
    else if isXmlChar c = true then
      (readText fuel (if c = ']' then b + 1 else 0) rest).map (fun r => (c :: r.1, r.2))
    else none

/-- The value of a run of decimal digits. -/
def readNat (ds : List Char) : Nat :=
  ds.foldl (fun acc c => acc * 10 + (c.toNat - 48)) 0

/-- Read the whole text as a decimal integer with an optional minus sign. -/
def readInt (s : List Char) : Option Int :=
  match s with
  | '-' :: ds =>
    if ds ≠ [] ∧ ds.all Char.isDigit = true then some (-((readNat ds : Nat) : Int)) else none
  | _ =>
    if s ≠ [] ∧ s.all Char.isDigit = true then some ((readNat s : Nat) : Int) else none

/-- Read the `Part` elements of the document element up to its end tag: every
`Part` holds a `PartNumber` element and an `ETag` element, in this order. The
first argument bounds the number of entries read. -/
def readEntries : Nat → List Char → Option (List (Int × String))
  | 0, _ => none
  | fuel + 1, s =>
    match expect bodyClose (skipSpace s) with
    | some rest => if skipSpace rest = [] then some [] else none
    | none =>
      match expect partOpen (skipSpace s) with
      | none => none
      | some s1 =>
        match expect numberOpen (skipSpace s1) with
        | none => none
        | some s2 =>
          match readText (s2.length + 1) 0 s2 with
          | none => none
          | some (numberText, s3) =>
            match readInt numberText with
            | none => none
            | some n =>
              match expect numberClose s3 with
              | none => none
              | some s4 =>
                match expect etagOpen (skipSpace s4) with
                | none => none
                | some s5 =>
                  match readText (s5.length + 1) 0 s5 with
                  | none => none
                  | some (tag, s6) =>
                    match expect etagClose s6 with
                    | none => none
                    | some s7 =>
                      match expect partClose (skipSpace s7) with
                      | none => none
                      | some s8 =>
                        match readEntries fuel s8 with
                        | none => none
                        | some rest => some ((n, String.mk tag) :: rest)

/-- Read the ordered `(part number, ETag)` pairs of a completion body back. -/
def readBody (body : String) : Option (List (Int × String)) :=
  match expect bodyOpen (skipSpace body.toList) with
  | none => none
  | some s => readEntries (s.length + 1) s

/-- The characters of the entry that `partEntry` writes for one part. -/
def entryChars (part : Part) : List Char :=
  partOpen ++ (numberOpen ++ ((fmtInt part.Number).data ++ (numberClose ++ (etagOpen
    ++ (part.ETag.data ++ (etagClose ++ partClose))))))

/-- The characters of the entries of a list of parts, in order. -/
def entriesChars : List Part → List Char
  | [] => []
  | part :: rest => entryChars part ++ entriesChars rest

/-- A character that XML character data represents by itself: allowed in a
document and neither `<`, `&` nor a carriage return. -/
def LiteralChar (c : Char) : Prop :=
  c ≠ '<' ∧ c ≠ '&' ∧ c.toNat ≠ 13 ∧ isXmlChar c = true

instance (c : Char) : Decidable (LiteralChar c) := by
  unfold LiteralChar; exact inferInstance

/-- The ETag of the part is text that XML character data represents by itself:
every character is a `LiteralChar` and the sequence `]]>` does not occur. -/
def TagSafe (part : Part) : Prop :=
  (∀ c, c ∈ part.ETag.data → LiteralChar c) ∧
    ¬ List.IsInfix "]]>".toList part.ETag.data

instance (part : Part) : Decidable (TagSafe part) := by
  unfold TagSafe; exact inferInstance

/-- The sequence `]]>` does not end in the text when `b` characters `]` stand
just before it: the scan that `readText` performs. -/
def cdataEndFree : Nat → List Char → Bool
  | _, [] => true
  | b, c :: rest =>
    if c = '>' ∧ 2 ≤ b then false else cdataEndFree (if c = ']' then b + 1 else 0) rest

/-! ## Example environments -/

/-- A store that accepts the part and answers 200 with the given tag. -/
def acceptingUpload (tag : String) : UploadEnv :=
  ⟨none, none, "u", none, none, .ok ⟨200, tag, .ok ""⟩⟩

/-- A store that answers with the given non-200 status and body. -/
def rejectingUpload (status : Int) (body : String) : UploadEnv :=
  ⟨none, none, "u", none, none, .ok ⟨status, "", .ok body⟩⟩

/-- Three parts are dispatched; parts 1 and 3 succeed with tags A and C and the
transfer of part 2 is rejected. -/
def partTwoFails : Int → PartEnv := fun n =>
  if n = 1 then ⟨none, acceptingUpload "A"⟩
  else if n = 2 then ⟨none, rejectingUpload 500 "InternalError"⟩
  else ⟨none, acceptingUpload "C"⟩

/-- Three parts are dispatched and all succeed, with tags A, B and C. -/
def allSucceed : Int → PartEnv := fun n =>
  if n = 1 then ⟨none, acceptingUpload "A"⟩
  else if n = 2 then ⟨none, acceptingUpload "B"⟩
  else ⟨none, acceptingUpload "C"⟩

/-! ## Specification-side notions for the plan -/

/-- The segment the specification assigns to the 0-indexed position `i`:
part number `i + 1` and byte range `[i * pSize, min ((i + 1) * pSize) fileSize)`,
in unbounded integer arithmetic. -/
def specSeg (fileSize pSize : Int) (i : Nat) : Seg :=
  { partNumber := (i : Int) + 1, start := (i : Int) * pSize,
    end_ := min (((i : Int) + 1) * pSize) fileSize }

/-- The plan numbers its segments 1, 2, ..., N, starts at byte 0, is contiguous,
ends at `fileSize`, and its half-open ranges are well formed, pairwise disjoint
and cover exactly `[0, fileSize)`. -/
def ExactCover (plan : List Seg) (fileSize : Int) : Prop :=
  plan.map Seg.partNumber = (List.range plan.length).map (fun k : Nat => (k : Int) + 1) ∧
  (∀ s : Seg, plan.head? = some s → s.start = 0) ∧
  (∀ (i : Nat) (s t : Seg), plan[i]? = some s → plan[i + 1]? = some t → t.start = s.end_) ∧
  (∀ s : Seg, plan.getLast? = some s → s.end_ = fileSize) ∧
  (∀ s : Seg, s ∈ plan → s.start ≤ s.end_) ∧
  (∀ (i j : Nat) (s t : Seg), i < j → plan[i]? = some s → plan[j]? = some t → s.end_ ≤ t.start) ∧
  (∀ b : Int, (0 ≤ b ∧ b < fileSize) ↔ ∃ s : Seg, s ∈ plan ∧ s.start ≤ b ∧ b < s.end_)

/-! ## Arithmetic facts -/

theorem wrap64_of_isInt64 {x : Int} (h : IsInt64 x) : wrap64 x = x := by
  unfold IsInt64 minInt64 maxInt64 at h
  unfold wrap64
  omega

theorem isInt64_wrap64 (x : Int) : IsInt64 (wrap64 x) := by
  unfold IsInt64 minInt64 maxInt64 wrap64
  omega

theorem isInt64_numParts (fileSize pSize : Int) : IsInt64 (numParts fileSize pSize) :=
  isInt64_wrap64 _

/-- The dividend of `numParts` is computed without a net overflow when the
mathematical value fits. -/
theorem dividend_eq {fileSize pSize : Int} (h0 : minInt64 ≤ fileSize + pSize - 1)
    (h1 : fileSize + pSize - 1 ≤ maxInt64) :
    sub64 (add64 fileSize pSize) 1 = fileSize + pSize - 1 := by
  unfold minInt64 at h0
  unfold maxInt64 at h1
  unfold sub64 add64 wrap64
  omega

theorem numParts_eq {fileSize pSize : Int} (hF : 0 ≤ fileSize) (hP : 0 < pSize)
    (hB : fileSize + pSize - 1 ≤ maxInt64) :
    numParts fileSize pSize = (fileSize + pSize - 1) / pSize := by
  have hd : sub64 (add64 fileSize pSize) 1 = fileSize + pSize - 1 :=
    dividend_eq (by unfold minInt64; omega) hB
  have hnn : 0 ≤ fileSize + pSize - 1 := by omega
  have hq0 : 0 ≤ (fileSize + pSize - 1) / pSize := Int.ediv_nonneg hnn (le_of_lt hP)
  have hq1 : (fileSize + pSize - 1) / pSize ≤ fileSize + pSize - 1 :=
    Int.ediv_le_self _ hnn
  unfold numParts div64
  rw [hd, Int.tdiv_eq_ediv hnn (le_of_lt hP)]
  apply wrap64_of_isInt64
  unfold IsInt64 minInt64
  constructor <;> omega

/-- The quotient `(fileSize + pSize - 1) / pSize` is the ceiling of
`fileSize / pSize`. -/
theorem ceil_bounds (fileSize : Int) {pSize : Int} (hP : 0 < pSize) :
    fileSize ≤ (fileSize + pSize - 1) / pSize * pSize ∧
      (fileSize + pSize - 1) / pSize * pSize ≤ fileSize + pSize - 1 := by
  have h1 := Int.ediv_mul_le (fileSize + pSize - 1) (ne_of_gt hP)
  have h2 := Int.lt_ediv_add_one_mul_self (fileSize + pSize - 1) hP
  have h3 : ((fileSize + pSize - 1) / pSize + 1) * pSize
      = (fileSize + pSize - 1) / pSize * pSize + pSize := by ring
  constructor <;> omega

/-! ## The planning loop in closed form -/

theorem planLoop_eq (fileSize pSize n : Int) (hn : n ≤ maxInt64) :
    ∀ (fuel : Nat) (i : Int), 0 ≤ i → i + fuel = n →
      planLoop fileSize pSize n fuel i
        = (List.range fuel).map (fun k : Nat => planStep fileSize pSize (i + (k : Int))) := by
  intro fuel
  induction fuel with
  | zero => intro i _ _; rfl
  | succ fuel ih =>
    intro i hi hsum
    have hlt : i < n := by push_cast at hsum; omega
    have hadd : add64 i 1 = i + 1 := by
      apply wrap64_of_isInt64
      unfold maxInt64 at hn
      unfold IsInt64 minInt64 maxInt64
      constructor <;> omega
    have hrec := ih (i + 1) (by omega) (by push_cast at hsum; omega)
    rw [planLoop, if_pos hlt, hadd, hrec, List.range_succ_eq_map, List.map_cons, List.map_map]
    congr 1
    · simp
    · apply List.map_congr_left
      intro k _
      simp only [Function.comp, Nat.succ_eq_add_one]
      congr 1
      push_cast
      ring

/-- The loop stops because its condition fails, not because the iteration
bound is reached: a larger bound gives the same triples. -/
theorem planLoop_fuel_irrelevant (fileSize pSize n : Int) (hn : n ≤ maxInt64) :
    ∀ (fuel : Nat) (i : Int), 0 ≤ i → i ≤ n → (n - i).toNat ≤ fuel →
      planLoop fileSize pSize n fuel i = planLoop fileSize pSize n (n - i).toNat i := by
  have hstep : ∀ (f : Nat) (j : Int), planLoop fileSize pSize n (f + 1) j =
      if j < n then planStep fileSize pSize j :: planLoop fileSize pSize n f (add64 j 1)
      else [] := fun _ _ => rfl
  intro fuel
  induction fuel with
  | zero =>
    intro i _ _ hfuel
    have h0 : (n - i).toNat = 0 := by omega
    rw [h0]
  | succ fuel ih =>
    intro i hi hin hfuel
    by_cases hlt : i < n
    · have hadd : add64 i 1 = i + 1 := by
        apply wrap64_of_isInt64
        unfold maxInt64 at hn
        unfold IsInt64 minInt64 maxInt64
        constructor <;> omega
      obtain ⟨m, hm⟩ : ∃ m : Nat, (n - i).toNat = m + 1 := ⟨(n - i).toNat - 1, by omega⟩
      have hm2 : (n - (i + 1)).toNat = m := by omega
      have hrec := ih (i + 1) (by omega) (by omega) (by omega)
      rw [hm2] at hrec
      rw [hm, hstep, hstep, if_pos hlt, if_pos hlt, hadd, hrec]
    · have h0 : (n - i).toNat = 0 := by omega
      rw [h0, hstep, if_neg hlt]
      rfl

/-- The plan is the list of loop bodies for the counters `0, ..., numParts - 1`,
for every file size. -/
theorem planParts_eq_map (fileSize pSize : Int) :
    planParts fileSize pSize
      = (List.range (numParts fileSize pSize).toNat).map
          (fun k : Nat => planStep fileSize pSize (k : Int)) := by
  have hr := (isInt64_numParts fileSize pSize).2
  unfold planParts
  by_cases hneg : numParts fileSize pSize < 0
  · have h0 : (numParts fileSize pSize).toNat = 0 := by omega
    rw [h0]; rfl
  · have hsum : (0 : Int) + ((numParts fileSize pSize).toNat : Int) = numParts fileSize pSize := by
      omega
    rw [planLoop_eq fileSize pSize _ hr _ 0 (le_refl 0) hsum]
    apply List.map_congr_left
    intro k _
    simp

theorem planStep_eq_specSeg {fileSize pSize : Int} {i : Nat} (hP : 0 < pSize)
    (hB : ((i : Int) + 1) * pSize ≤ maxInt64) :
    planStep fileSize pSize (i : Int) = specSeg fileSize pSize i := by
  have hi : (0 : Int) ≤ (i : Int) := Int.ofNat_nonneg i
  have hmul : (i : Int) * pSize ≤ ((i : Int) + 1) * pSize := by nlinarith
  have hmul0 : 0 ≤ (i : Int) * pSize := Int.mul_nonneg hi (le_of_lt hP)
  have hle : (i : Int) + 1 ≤ ((i : Int) + 1) * pSize := by nlinarith
  have h1 : add64 (i : Int) 1 = (i : Int) + 1 := by
    apply wrap64_of_isInt64
    unfold IsInt64 minInt64
    constructor <;> omega
  have h2 : mul64 (i : Int) pSize = (i : Int) * pSize := by
    apply wrap64_of_isInt64
    unfold IsInt64 minInt64
    constructor <;> omega
  have h3 : mul64 ((i : Int) + 1) pSize = ((i : Int) + 1) * pSize := by
    apply wrap64_of_isInt64
    unfold IsInt64 minInt64
    constructor <;> omega
  have hmin : (if ((i : Int) + 1) * pSize > fileSize then fileSize else ((i : Int) + 1) * pSize)
      = min (((i : Int) + 1) * pSize) fileSize := by
    by_cases hc : ((i : Int) + 1) * pSize > fileSize
    · rw [if_pos hc, min_eq_right (le_of_lt hc)]
    · rw [if_neg hc, min_eq_left (not_lt.mp hc)]
  unfold planStep specSeg
  simp only [h1, h2, h3, hmin]

/-- Within the range where the dividend fits, the plan is the specification's
list of segments. -/
theorem planParts_eq_spec {fileSize pSize : Int} (hF : 0 ≤ fileSize) (hP : 0 < pSize)
    (hB : fileSize + pSize - 1 ≤ maxInt64) :
    planParts fileSize pSize
      = (List.range ((fileSize + pSize - 1) / pSize).toNat).map (specSeg fileSize pSize) := by
  rw [planParts_eq_map, numParts_eq hF hP hB]
  apply List.map_congr_left
  intro k hk
  have hk1 : k < ((fileSize + pSize - 1) / pSize).toNat := List.mem_range.mp hk
  have hc := (ceil_bounds fileSize hP).2
  apply planStep_eq_specSeg hP
  have : ((k : Int) + 1) ≤ (fileSize + pSize - 1) / pSize := by omega
  have : ((k : Int) + 1) * pSize ≤ (fileSize + pSize - 1) / pSize * pSize :=
    Int.mul_le_mul_of_nonneg_right this (le_of_lt hP)
  omega

/-! ## The specification's segment list is an exact cover -/

theorem getElem?_range_map {α : Type} (f : Nat → α) (N i : Nat) (a : α) :
    ((List.range N).map f)[i]? = some a ↔ i < N ∧ a = f i := by
  rw [List.getElem?_map]
  by_cases h : i < N
  · rw [List.getElem?_range h]
    simp [h, eq_comm]
  · rw [List.getElem?_eq_none (by simpa using h)]
    simp [h]

theorem mul_le_of_lt_count {P : Int} (hP : 0 < P) {i N : Nat} (h : i < N) :
    ((i : Int) + 1) * P ≤ (N : Int) * P := by
  have : (i : Int) + 1 ≤ (N : Int) := by omega
  exact Int.mul_le_mul_of_nonneg_right this (le_of_lt hP)

theorem exactCover_spec {F P : Int} (hP : 0 < P) (N : Nat)
    (hN1 : F ≤ (N : Int) * P) (hN2 : (N : Int) * P ≤ F + P - 1) :
    ExactCover ((List.range N).map (specSeg F P)) F := by
  have hstep : ∀ k : Nat, ((k : Int) + 1) * P = (k : Int) * P + P := fun k => by ring
  refine ⟨?_, ?_, ?_, ?_, ?_, ?_, ?_⟩
  · simp [specSeg, Function.comp]
  · intro s hs
    cases N with
    | zero => simp at hs
    | succ n =>
      rw [List.range_succ_eq_map] at hs
      simp only [List.map_cons, List.head?_cons, Option.some.injEq] at hs
      subst hs
      simp [specSeg]
  · intro i s t hs ht
    obtain ⟨_, rfl⟩ := (getElem?_range_map _ _ _ _).mp hs
    obtain ⟨hi1, rfl⟩ := (getElem?_range_map _ _ _ _).mp ht
    have h1 := mul_le_of_lt_count hP hi1
    have h2 := hstep (i + 1)
    have h3 : (((i + 1 : Nat) : Int)) = (i : Int) + 1 := by push_cast; ring
    simp only [specSeg]
    rw [h3] at h1 h2 ⊢
    rw [min_eq_left (by omega)]
  · intro s hs
    cases N with
    | zero => simp at hs
    | succ n =>
      rw [List.range_succ, List.map_append, List.map_singleton] at hs
      simp only [List.getLast?_append, List.getLast?_singleton, Option.or_some,
        Option.some.injEq] at hs
      subst hs
      simp only [specSeg]
      have : ((n : Int) + 1) = ((n + 1 : Nat) : Int) := by push_cast; ring
      rw [this, min_eq_right hN1]
  · intro s hs
    obtain ⟨i, hi, rfl⟩ := List.mem_map.mp hs
    have hi1 : i < N := List.mem_range.mp hi
    have h1 := mul_le_of_lt_count hP hi1
    have h2 := hstep i
    simp only [specSeg]
    apply le_min <;> omega
  · intro i j s t hij hs ht
    obtain ⟨_, rfl⟩ := (getElem?_range_map _ _ _ _).mp hs
    obtain ⟨_, rfl⟩ := (getElem?_range_map _ _ _ _).mp ht
    have h1 := mul_le_of_lt_count hP hij
    simp only [specSeg]
    exact le_trans (min_le_left _ _) h1
  · intro b
    constructor
    · rintro ⟨hb0, hbF⟩
      have hq0 : 0 ≤ b / P := Int.ediv_nonneg hb0 (le_of_lt hP)
      have hqN : b / P < (N : Int) := Int.ediv_lt_of_lt_mul hP (lt_of_lt_of_le hbF hN1)
      refine ⟨specSeg F P (b / P).toNat, ?_, ?_, ?_⟩
      · exact List.mem_map.mpr ⟨(b / P).toNat, List.mem_range.mpr (by omega), rfl⟩
      · simp only [specSeg, Int.toNat_of_nonneg hq0]
        exact Int.ediv_mul_le b (ne_of_gt hP)
      · simp only [specSeg, Int.toNat_of_nonneg hq0]
        exact lt_min (Int.lt_ediv_add_one_mul_self b hP) hbF
    · rintro ⟨s, hs, h1, h2⟩
      obtain ⟨i, _, rfl⟩ := List.mem_map.mp hs
      simp only [specSeg] at h1 h2
      have hi0 : (0 : Int) ≤ (i : Int) * P :=
        Int.mul_nonneg (Int.ofNat_nonneg i) (le_of_lt hP)
      exact ⟨le_trans hi0 h1, lt_of_lt_of_le h2 (min_le_right _ _)⟩

theorem tdiv_bounds_of_nonpos {a P : Int} (ha : a ≤ 0) (hP : 0 < P) :
    a ≤ a.tdiv P ∧ a.tdiv P ≤ 0 := by
  have hna : 0 ≤ -a := by omega
  have h1 : a.tdiv P = -((-a) / P) := by
    have := Int.neg_tdiv (-a) P
    rw [Int.neg_neg] at this
    rw [this, Int.tdiv_eq_ediv hna (le_of_lt hP)]
  have h2 : 0 ≤ (-a) / P := Int.ediv_nonneg hna (le_of_lt hP)
  have h3 : (-a) / P ≤ -a := Int.ediv_le_self _ hna
  omega

/-- Above the bound the dividend wraps to a negative value and the loop of
performMultipartUpload plans nothing. -/
theorem numParts_nonpos_of_wrap {fileSize : Int} (h0 : maxInt64 - partSize + 1 < fileSize)
    (h1 : fileSize ≤ maxInt64) : numParts fileSize partSize ≤ 0 := by
  unfold maxInt64 partSize at h0
  unfold maxInt64 at h1
  have hd : sub64 (add64 fileSize partSize) 1 = fileSize + 5368709120 - 1 - 18446744073709551616 := by
    unfold sub64 add64 wrap64 partSize
    omega
  have hP : (0 : Int) < partSize := by decide
  have hb := tdiv_bounds_of_nonpos (a := fileSize + 5368709120 - 1 - 18446744073709551616)
    (by omega) hP
  unfold numParts div64
  rw [hd, wrap64_of_isInt64]
  · exact hb.2
  · unfold IsInt64 minInt64 maxInt64
    constructor <;> omega

theorem planParts_eq_nil_of_wrap {fileSize : Int} (h0 : maxInt64 - partSize + 1 < fileSize)
    (h1 : fileSize ≤ maxInt64) : planParts fileSize partSize = [] := by
  have h := numParts_nonpos_of_wrap h0 h1
  have hz : (numParts fileSize partSize).toNat = 0 := by omega
  rw [planParts_eq_map, hz]
  rfl

/-! ## Claims about the plan -/

/-- C1 (amended): for every part size `pSize > 0` and every file size with
`0 ≤ fileSize` and `fileSize + pSize - 1 ≤ 2^63 - 1` (so that the int64 dividend
of `numParts` fits), the triples computed by the planning loop are numbered
1, 2, ..., N in order, the first starts at byte 0, each starts where the previous
one ends, the last ends at `fileSize`, and the half-open ranges are disjoint and
cover exactly `[0, fileSize)`. -/
theorem planParts_exactCover (fileSize pSize : Int) (hF : 0 ≤ fileSize) (hP : 0 < pSize)
    (hB : fileSize + pSize - 1 ≤ maxInt64) :
    ExactCover (planParts fileSize pSize) fileSize := by
  have hq0 : 0 ≤ (fileSize + pSize - 1) / pSize :=
    Int.ediv_nonneg (by omega) (le_of_lt hP)
  have hc := ceil_bounds fileSize hP
  rw [planParts_eq_spec hF hP hB]
  apply exactCover_spec hP
  · rw [Int.toNat_of_nonneg hq0]; exact hc.1
  · rw [Int.toNat_of_nonneg hq0]; exact hc.2

/-- Witness for C1: the theorem applied to a file of 12000000000 bytes with the
5 GiB part size of performMultipartUpload. -/
theorem planParts_exactCover_witness :
    (0 : Int) ≤ 12000000000 ∧ 0 < partSize ∧ 12000000000 + partSize - 1 ≤ maxInt64 ∧
      ExactCover (planParts 12000000000 partSize) 12000000000 :=
  ⟨by decide, by decide, by decide,
    planParts_exactCover 12000000000 partSize (by decide) (by decide) (by decide)⟩

/-- C1 (as stated) fails: a file of `2^63 - 1` bytes is a non-negative int64
size, yet the dividend wraps, `numParts` is negative, `make(chan Part, numParts)`
panics, the loop computes no triple and nothing covers byte 0. -/
theorem planParts_exactCover_counterexample :
    (0 : Int) ≤ 9223372036854775807 ∧ IsInt64 9223372036854775807 ∧
      numParts 9223372036854775807 partSize = -1717986917 ∧
      planParts 9223372036854775807 partSize = [] ∧
      performMultipartUpload ⟨none, none, 9223372036854775807⟩ []
        = Outcome.panicked "makechan: size out of range" ∧
      ¬ ExactCover (planParts 9223372036854775807 partSize) 9223372036854775807 := by
  have hplan : planParts 9223372036854775807 partSize = [] := by decide
  refine ⟨by decide, by decide, by decide, hplan, rfl, ?_⟩
  intro h
  obtain ⟨s, hs, _⟩ := (h.2.2.2.2.2.2 0).mp ⟨le_refl 0, by decide⟩
  rw [hplan] at hs
  exact List.not_mem_nil s hs

/-- C2 (amended): for every part size `pSize > 0` and every file size with
`0 ≤ fileSize` and `fileSize + pSize - 1 ≤ 2^63 - 1`, the computed `numParts` is
the ceiling of `fileSize / pSize`, that is the least N with
`N * pSize ≥ fileSize`, the plan has `numParts` segments and segment `i` is
`[i * pSize, min ((i + 1) * pSize) fileSize)` with part number `i + 1`; a file of
12000000000 bytes with the 5 GiB part size gives the three parts of the
scenario. -/
theorem numParts_ceiling_and_segments :
    (∀ fileSize pSize : Int, 0 ≤ fileSize → 0 < pSize → fileSize + pSize - 1 ≤ maxInt64 →
      numParts fileSize pSize = ⌈(fileSize : ℚ) / (pSize : ℚ)⌉ ∧
      0 ≤ numParts fileSize pSize ∧
      fileSize ≤ numParts fileSize pSize * pSize ∧
      (∀ m : Int, fileSize ≤ m * pSize → numParts fileSize pSize ≤ m) ∧
      (planParts fileSize pSize).length = (numParts fileSize pSize).toNat ∧
      (∀ i : Nat, (i : Int) < numParts fileSize pSize →
        (planParts fileSize pSize)[i]? =
          some { partNumber := (i : Int) + 1, start := (i : Int) * pSize,
                 end_ := min (((i : Int) + 1) * pSize) fileSize })) ∧
    partSize = 5368709120 ∧
    numParts 12000000000 partSize = 3 ∧
    planParts 12000000000 partSize =
      [⟨1, 0, 5368709120⟩, ⟨2, 5368709120, 10737418240⟩, ⟨3, 10737418240, 12000000000⟩] := by
  refine ⟨?_, by decide, by decide, by decide⟩
  intro fileSize pSize hF hP hB
  have hn := numParts_eq hF hP hB
  have hq0 : 0 ≤ (fileSize + pSize - 1) / pSize :=
    Int.ediv_nonneg (by omega) (le_of_lt hP)
  have hc := ceil_bounds fileSize hP
  rw [hn]
  refine ⟨?_, hq0, hc.1, ?_, ?_, ?_⟩
  · symm
    rw [Int.ceil_eq_iff]
    have hPq : (0 : ℚ) < (pSize : ℚ) := by exact_mod_cast hP
    constructor
    · rw [lt_div_iff₀ hPq]
      have : ((fileSize + pSize - 1) / pSize - 1) * pSize < fileSize := by
        have h3 : ((fileSize + pSize - 1) / pSize - 1) * pSize
            = (fileSize + pSize - 1) / pSize * pSize - pSize := by ring
        omega
      exact_mod_cast this
    · rw [div_le_iff₀ hPq]
      exact_mod_cast hc.1
  · intro m hm
    by_contra hlt
    have h1 : m + 1 ≤ (fileSize + pSize - 1) / pSize := by omega
    have h2 : (m + 1) * pSize ≤ (fileSize + pSize - 1) / pSize * pSize :=
      Int.mul_le_mul_of_nonneg_right h1 (le_of_lt hP)
    have h3 : (m + 1) * pSize = m * pSize + pSize := by ring
    omega
  · rw [planParts_eq_spec hF hP hB]
    simp
  · intro i hi
    rw [planParts_eq_spec hF hP hB]
    exact (getElem?_range_map _ _ _ _).mpr ⟨by omega, rfl⟩

/-- Witness for C2: the universal part of the theorem applied to a file of
16 bytes with a part size of 5 bytes. -/
theorem numParts_ceiling_and_segments_witness :
    (0 : Int) ≤ 16 ∧ (0 : Int) < 5 ∧ (16 : Int) + 5 - 1 ≤ maxInt64 ∧
      numParts 16 5 = ⌈((16 : Int) : ℚ) / ((5 : Int) : ℚ)⌉ ∧
      (planParts 16 5).length = (numParts 16 5).toNat :=
  have h := numParts_ceiling_and_segments.1 16 5 (by decide) (by decide) (by decide)
  ⟨by decide, by decide, by decide, h.1, h.2.2.2.2.1⟩

/-- C2 (as stated) fails: for the non-negative int64 file size
`2^63 - partSize + 1` the dividend wraps, the computed `numParts` is negative and
`numParts * partSize ≥ fileSize` is false, so it is not the ceiling. -/
theorem numParts_ceiling_counterexample :
    (0 : Int) ≤ 9223372031486066689 ∧ IsInt64 9223372031486066689 ∧
      numParts 9223372031486066689 partSize = -1717986918 ∧
      ¬ (9223372031486066689 ≤ numParts 9223372031486066689 partSize * partSize) ∧
      planParts 9223372031486066689 partSize = [] := by
  decide

/-- Lengths of the specification's segments: between 1 and the part size, and
exactly the part size for a segment that has a successor. -/
theorem specSeg_length {F P : Int} (hP : 0 < P) {N i : Nat}
    (hN2 : (N : Int) * P ≤ F + P - 1) (hi : i < N) :
    1 ≤ (specSeg F P i).end_ - (specSeg F P i).start ∧
      (specSeg F P i).end_ - (specSeg F P i).start ≤ P ∧
      (i + 1 < N → (specSeg F P i).end_ - (specSeg F P i).start = P) := by
  have hstep : ((i : Int) + 1) * P = (i : Int) * P + P := by ring
  have h1 := mul_le_of_lt_count hP hi
  simp only [specSeg]
  refine ⟨?_, ?_, ?_⟩
  · have : (i : Int) * P + 1 ≤ min (((i : Int) + 1) * P) F := le_min (by omega) (by omega)
    omega
  · have := min_le_left (((i : Int) + 1) * P) F
    omega
  · intro hi1
    have h2 := mul_le_of_lt_count hP hi1
    have h3 : (((i + 1 : Nat) : Int) + 1) * P = ((i : Int) + 1) * P + P := by push_cast; ring
    rw [min_eq_left (by omega)]
    omega

/-- C9: for every int64 file size `fileSize > 0`, every segment planned by
performMultipartUpload has length `end - start` with `1 ≤ end - start ≤ partSize`,
the int64 subtraction `end - start` passed to `make` does not wrap (so the buffer
size is never negative and never zero), and every segment that is followed by
another one has length exactly `partSize`. -/
theorem planned_segment_lengths (fileSize : Int) (h0 : 0 < fileSize)
    (h1 : fileSize ≤ maxInt64) :
    (∀ s : Seg, s ∈ planParts fileSize partSize →
      1 ≤ s.end_ - s.start ∧ s.end_ - s.start ≤ partSize ∧
        sub64 s.end_ s.start = s.end_ - s.start ∧ 1 ≤ sub64 s.end_ s.start) ∧
    (∀ (i : Nat) (s t : Seg), (planParts fileSize partSize)[i]? = some s →
      (planParts fileSize partSize)[i + 1]? = some t → s.end_ - s.start = partSize) := by
  have hP : (0 : Int) < partSize := by decide
  by_cases hB : fileSize + partSize - 1 ≤ maxInt64
  · have hq0 : 0 ≤ (fileSize + partSize - 1) / partSize :=
      Int.ediv_nonneg (by omega) (le_of_lt hP)
    have hc := (ceil_bounds fileSize hP).2
    rw [← Int.toNat_of_nonneg hq0] at hc
    rw [planParts_eq_spec (le_of_lt h0) hP hB]
    constructor
    · intro s hs
      obtain ⟨i, hi, rfl⟩ := List.mem_map.mp hs
      have hl := specSeg_length hP hc (List.mem_range.mp hi)
      have hw : sub64 (specSeg fileSize partSize i).end_ (specSeg fileSize partSize i).start
          = (specSeg fileSize partSize i).end_ - (specSeg fileSize partSize i).start := by
        apply wrap64_of_isInt64
        have hp : partSize = 5368709120 := by decide
        unfold IsInt64 minInt64 maxInt64
        constructor <;> omega
      exact ⟨hl.1, hl.2.1, hw, by rw [hw]; exact hl.1⟩
    · intro i s t hs ht
      obtain ⟨hi, rfl⟩ := (getElem?_range_map _ _ _ _).mp hs
      obtain ⟨hi1, _⟩ := (getElem?_range_map _ _ _ _).mp ht
      exact (specSeg_length hP hc hi).2.2 hi1
  · have hnil := planParts_eq_nil_of_wrap (by omega) h1
    rw [hnil]
    constructor
    · intro s hs
      exact absurd hs (List.not_mem_nil s)
    · intro i s t hs
      simp at hs

/-- Witness for C9: the theorem applied to a file of 12000000000 bytes. -/
theorem planned_segment_lengths_witness :
    (0 : Int) < 12000000000 ∧ (12000000000 : Int) ≤ maxInt64 ∧
      (∀ s : Seg, s ∈ planParts 12000000000 partSize →
        1 ≤ s.end_ - s.start ∧ s.end_ - s.start ≤ partSize ∧
          sub64 s.end_ s.start = s.end_ - s.start ∧ 1 ≤ sub64 s.end_ s.start) :=
  ⟨by decide, by decide,
    (planned_segment_lengths 12000000000 (by decide) (by decide)).1⟩

/-- C10: with int64 arithmetic wrapping modulo `2^64` and `partSize = 5 * 2^30`,
for every `fileSize` with `0 ≤ fileSize ≤ 2^63 - partSize` the values
`fileSize + partSize - 1`, `i * partSize` and `(i + 1) * partSize` (for
`0 ≤ i < numParts`) are int64 values and are what the wrapping operations
compute, `numParts` is non-negative and equals the mathematical quotient, and the
planned triples equal their mathematical values; for `fileSize = 2^63 - 1` the
sum `fileSize + partSize - 1` is not an int64 value, the computed dividend
differs from it and `numParts` is negative. At the single size
`fileSize = 2^63 - partSize` the intermediate sum `fileSize + partSize` wraps and
the subtraction of 1 wraps back, so the dividend is still the mathematical
value `2^63 - 1`. -/
theorem int64_planning_range :
    (∀ fileSize : Int, 0 ≤ fileSize → fileSize ≤ 9223372036854775808 - partSize →
      IsInt64 (fileSize + partSize - 1) ∧
      sub64 (add64 fileSize partSize) 1 = fileSize + partSize - 1 ∧
      0 ≤ numParts fileSize partSize ∧
      numParts fileSize partSize = (fileSize + partSize - 1) / partSize ∧
      (∀ i : Nat, (i : Int) < numParts fileSize partSize →
        IsInt64 ((i : Int) * partSize) ∧ IsInt64 (((i : Int) + 1) * partSize) ∧
        mul64 (i : Int) partSize = (i : Int) * partSize ∧
        mul64 (add64 (i : Int) 1) partSize = ((i : Int) + 1) * partSize ∧
        planStep fileSize partSize (i : Int) = specSeg fileSize partSize i) ∧
      planParts fileSize partSize
        = (List.range (numParts fileSize partSize).toNat).map (specSeg fileSize partSize)) ∧
    (partSize = 5 * 2 ^ 30 ∧
      9223372036854775808 - partSize < 9223372036854775807 ∧
      IsInt64 9223372036854775807 ∧
      ¬ IsInt64 (9223372036854775807 + partSize - 1) ∧
      sub64 (add64 9223372036854775807 partSize) 1 ≠ 9223372036854775807 + partSize - 1 ∧
      numParts 9223372036854775807 partSize < 0 ∧
      add64 (9223372036854775808 - partSize) partSize = -9223372036854775808 ∧
      sub64 (add64 (9223372036854775808 - partSize) partSize) 1 = 9223372036854775807) := by
  refine ⟨?_, by decide⟩
  intro fileSize hF hB
  have hP : (0 : Int) < partSize := by decide
  have hp : partSize = 5368709120 := by decide
  have hB1 : fileSize + partSize - 1 ≤ maxInt64 := by unfold maxInt64; omega
  have hn := numParts_eq hF hP hB1
  have hq0 : 0 ≤ (fileSize + partSize - 1) / partSize :=
    Int.ediv_nonneg (by omega) (le_of_lt hP)
  have hc := (ceil_bounds fileSize hP).2
  refine ⟨?_, dividend_eq (by unfold minInt64; omega) hB1, by rw [hn]; exact hq0, hn, ?_, ?_⟩
  · unfold IsInt64 minInt64
    constructor <;> omega
  · intro i hi
    rw [hn] at hi
    have h1 : ((i : Int) + 1) * partSize ≤ (fileSize + partSize - 1) / partSize * partSize :=
      Int.mul_le_mul_of_nonneg_right (by omega) (le_of_lt hP)
    have h2 : ((i : Int) + 1) * partSize = (i : Int) * partSize + partSize := by ring
    have h3 : (0 : Int) ≤ (i : Int) * partSize :=
      Int.mul_nonneg (Int.ofNat_nonneg i) (le_of_lt hP)
    have hle : (i : Int) + 1 ≤ ((i : Int) + 1) * partSize := by nlinarith
    have ha : IsInt64 ((i : Int) * partSize) := by
      unfold IsInt64 minInt64 maxInt64
      unfold maxInt64 at hB1
      constructor <;> omega
    have hb : IsInt64 (((i : Int) + 1) * partSize) := by
      unfold IsInt64 minInt64 maxInt64
      unfold maxInt64 at hB1
      constructor <;> omega
    have hadd : add64 (i : Int) 1 = (i : Int) + 1 := by
      apply wrap64_of_isInt64
      unfold IsInt64 minInt64 maxInt64
      unfold maxInt64 at hB1
      constructor <;> omega
    refine ⟨ha, hb, wrap64_of_isInt64 ha, ?_, ?_⟩
    · rw [hadd]; exact wrap64_of_isInt64 hb
    · exact planStep_eq_specSeg hP (by omega)
  · rw [planParts_eq_spec hF hP hB1, hn]

/-- Witness for C10: the universal part of the theorem applied to the largest
file size of its range, `2^63 - partSize`. -/
theorem int64_planning_range_witness :
    (0 : Int) ≤ 9223372031486066688 ∧ 9223372031486066688 ≤ 9223372036854775808 - partSize ∧
      numParts 9223372031486066688 partSize
        = (9223372031486066688 + partSize - 1) / partSize ∧
      0 ≤ numParts 9223372031486066688 partSize :=
  have h := int64_planning_range.1 9223372031486066688 (by decide) (by decide)
  ⟨by decide, by decide, h.2.2.2.1, h.2.2.1⟩

/-! ## uploadPart -/

/-- C6: given a response from the store (presigning, request creation, signing
and sending all succeeded), uploadPart returns a tag without error if and only
if the status is 200 and the ETag header is non-empty, and the tag is then
exactly the header value; a 200 response with a missing or empty ETag header
yields an error; a non-200 response yields an error, and when its body was read
the message is `error uploading part <n>: ` followed by the full body. -/
theorem uploadPart_response (env : UploadEnv) (partNumber : Int) (resp : Response)
    (h1 : env.presignNewRequestErr = none) (h2 : env.presignSignErr = none)
    (h3 : env.newRequestErr = none) (h4 : env.signErr = none) (h5 : env.send = .ok resp) :
    ((∃ tag, uploadPart env partNumber = .ok tag)
      ↔ (resp.statusCode = 200 ∧ resp.etagHeader ≠ "")) ∧
    (∀ tag, uploadPart env partNumber = .ok tag → tag = resp.etagHeader) ∧
    (resp.statusCode = 200 → resp.etagHeader = "" →
      uploadPart env partNumber = .error "error: ETag not found in response header") ∧
    (resp.statusCode ≠ 200 → ∃ msg, uploadPart env partNumber = .error msg) ∧
    (resp.statusCode ≠ 200 → ∀ body, resp.body = .ok body →
      uploadPart env partNumber
        = .error ("error uploading part " ++ fmtInt partNumber ++ ": " ++ body) ∧
      ∃ pre, uploadPart env partNumber = .error (pre ++ body)) := by
  have hu : uploadPart env partNumber =
      if resp.statusCode ≠ 200 then
        match resp.body with
        | .error e => .error ("error reading response body: " ++ e)
        | .ok body => .error ("error uploading part " ++ fmtInt partNumber ++ ": " ++ body)
      else if resp.etagHeader = "" then .error "error: ETag not found in response header"
      else .ok resp.etagHeader := by
    simp only [uploadPart, generatePresignedURL, h1, h2, h3, h4, h5]
  by_cases hs : resp.statusCode = 200
  · by_cases he : resp.etagHeader = ""
    · rw [if_neg (not_not.mpr hs), if_pos he] at hu
      rw [hu]
      refine ⟨⟨?_, fun h => absurd he h.2⟩, ?_, fun _ _ => rfl, fun h => absurd hs h,
        fun h => absurd hs h⟩
      · rintro ⟨tag, htag⟩; cases htag
      · intro tag htag; cases htag
    · rw [if_neg (not_not.mpr hs), if_neg he] at hu
      rw [hu]
      refine ⟨⟨fun _ => ⟨hs, he⟩, fun _ => ⟨_, rfl⟩⟩, ?_, fun _ h => absurd h he,
        fun h => absurd hs h, fun h => absurd hs h⟩
      intro tag htag
      cases htag
      rfl
  · rw [if_pos hs] at hu
    rw [hu]
    refine ⟨⟨?_, fun h => absurd h.1 hs⟩, ?_, fun h => absurd h hs, ?_, ?_⟩
    · rintro ⟨tag, htag⟩
      cases hb : resp.body <;> rw [hb] at htag <;> cases htag
    · intro tag htag
      cases hb : resp.body <;> rw [hb] at htag <;> cases htag
    · intro _
      cases hb : resp.body with
      | error e => exact ⟨_, rfl⟩
      | ok body => exact ⟨_, rfl⟩
    · intro _ body hb
      rw [hb]
      exact ⟨rfl, "error uploading part " ++ fmtInt partNumber ++ ": ", rfl⟩

/-- Witness for C6: the theorem applied to a 200 response carrying the tag
`abc`. -/
theorem uploadPart_response_witness :
    (∃ tag, uploadPart ⟨none, none, "u", none, none, .ok ⟨200, "abc", .ok ""⟩⟩ 1 = .ok tag)
      ∧ ∀ tag, uploadPart ⟨none, none, "u", none, none, .ok ⟨200, "abc", .ok ""⟩⟩ 1 = .ok tag
          → tag = "abc" :=
  have h := uploadPart_response ⟨none, none, "u", none, none, .ok ⟨200, "abc", .ok ""⟩⟩ 1
    ⟨200, "abc", .ok ""⟩ rfl rfl rfl rfl rfl
  ⟨h.1.mpr ⟨rfl, by decide⟩, h.2.1⟩

/-! ## Sorting the collected parts -/

/-- A list sorted by `Number` whose numbers are distinct is strictly sorted. -/
theorem strict_of_sorted_nodup {l : List Part}
    (hs : l.Pairwise (fun a b => a.Number ≤ b.Number)) (hnd : (l.map Part.Number).Nodup) :
    l.Pairwise (fun a b => a.Number < b.Number) := by
  have hne : l.Pairwise (fun a b => a.Number ≠ b.Number) := by
    unfold List.Nodup at hnd
    exact List.pairwise_map.mp hnd
  exact (hs.and hne).imp (fun h => lt_of_le_of_ne h.1 h.2)

/-- Any two arrangements of parts with distinct numbers that are sorted by
`Number` coincide. -/
theorem sorted_unique {l₁ l₂ : List Part} (hp : l₁.Perm l₂)
    (hnd : (l₂.map Part.Number).Nodup)
    (h1 : l₁.Pairwise (fun a b => a.Number ≤ b.Number))
    (h2 : l₂.Pairwise (fun a b => a.Number ≤ b.Number)) : l₁ = l₂ := by
  have hnd1 : (l₁.map Part.Number).Nodup := (hp.map Part.Number).nodup_iff.mpr hnd
  haveI : IsAntisymm Part (fun a b => a.Number < b.Number) :=
    ⟨fun _ _ h1 h2 => absurd h1 (not_lt.mpr (le_of_lt h2))⟩
  exact List.eq_of_perm_of_sorted hp (strict_of_sorted_nodup h1 hnd1)
    (strict_of_sorted_nodup h2 hnd)

theorem sortSlice_perm (parts : List Part) : (sortSlice parts).Perm parts :=
  List.perm_insertionSort _ parts

theorem sortSlice_sorted (parts : List Part) :
    (sortSlice parts).Pairwise (fun a b => a.Number ≤ b.Number) := by
  haveI : IsTotal Part (fun a b => a.Number ≤ b.Number) :=
    ⟨fun a b => le_total a.Number b.Number⟩
  haveI : IsTrans Part (fun a b => a.Number ≤ b.Number) :=
    ⟨fun _ _ _ h1 h2 => le_trans h1 h2⟩
  exact List.sorted_insertionSort _ parts

theorem foldl_append_init (ss : List String) : ∀ init : String,
    ss.foldl (fun r s => r ++ s) init = init ++ ss.foldl (fun r s => r ++ s) "" := by
  induction ss with
  | nil => intro init; simp
  | cons s ss ih =>
    intro init
    rw [List.foldl_cons, List.foldl_cons, ih (init ++ s), ih ("" ++ s), String.empty_append,
      String.append_assoc]

/-- The body is the opening text, the entries of the parts in the given order,
and the closing text. -/
theorem xmlBody_eq_join (parts : List Part) :
    xmlBody parts = "<CompleteMultipartUpload>"
      ++ String.join (parts.map (fun part => "<Part><PartNumber>" ++ fmtInt part.Number
          ++ "</PartNumber><ETag>" ++ part.ETag ++ "</ETag></Part>"))
      ++ "</CompleteMultipartUpload>" := by
  have h : ∀ init : String,
      parts.foldl (fun acc part => acc ++ partEntry part) init
        = init ++ (parts.map partEntry).foldl (fun r s => r ++ s) "" := by
    intro init
    rw [← foldl_append_init, List.foldl_map]
  unfold xmlBody
  rw [h]
  rfl

/-- C3: for every list of collected parts with pairwise distinct part numbers
and every permutation of it (every arrival order), completeMultipartUpload
builds the same manifest and the same body; the body it builds is the opening
text, then one entry `<Part><PartNumber>n</PartNumber><ETag>t</ETag></Part>` per
collected part, in strictly ascending order of `Number` and with the ETag the
part was published with, then the closing text; the manifest holds exactly the
collected parts. Any arrangement of the parts sorted by `Number` is this
manifest, so the result does not depend on the sorting algorithm either. -/
theorem manifest_order_independent (parts arrival : List Part)
    (hnd : (parts.map Part.Number).Nodup) (hperm : arrival.Perm parts) :
    sortSlice arrival = sortSlice parts ∧
    manifest arrival = manifest parts ∧
    completeMultipartUpload arrival = completeMultipartUpload parts ∧
    (sortSlice arrival).Pairwise (fun a b => a.Number < b.Number) ∧
    (manifest arrival).Pairwise (fun a b => a.1 < b.1) ∧
    (sortSlice arrival).Perm parts ∧
    (∀ p : Part, p ∈ sortSlice arrival ↔ p ∈ parts) ∧
    (∀ p q : Part, p ∈ parts → q ∈ sortSlice arrival → q.Number = p.Number →
      q.ETag = p.ETag) ∧
    (∀ l : List Part, l.Perm parts → l.Pairwise (fun a b => a.Number ≤ b.Number) →
      l = sortSlice arrival) ∧
    (∃ l : List Part, l.Perm parts ∧ l.Pairwise (fun a b => a.Number < b.Number) ∧
      manifest arrival = l.map (fun part => (part.Number, part.ETag)) ∧
      completeMultipartUpload arrival = "<CompleteMultipartUpload>"
        ++ String.join (l.map (fun part => "<Part><PartNumber>" ++ fmtInt part.Number
            ++ "</PartNumber><ETag>" ++ part.ETag ++ "</ETag></Part>"))
        ++ "</CompleteMultipartUpload>") ∧
    (∀ l : List Part, l.Perm parts → l.Pairwise (fun a b => a.Number ≤ b.Number) →
      manifest arrival = l.map (fun part => (part.Number, part.ETag)) ∧
      completeMultipartUpload arrival = "<CompleteMultipartUpload>"
        ++ String.join (l.map (fun part => "<Part><PartNumber>" ++ fmtInt part.Number
            ++ "</PartNumber><ETag>" ++ part.ETag ++ "</ETag></Part>"))
        ++ "</CompleteMultipartUpload>") := by
  have hpa : (sortSlice arrival).Perm parts := (sortSlice_perm arrival).trans hperm
  have hnda : ((sortSlice arrival).map Part.Number).Nodup :=
    (hpa.map Part.Number).nodup_iff.mpr hnd
  have hndp : ((sortSlice parts).map Part.Number).Nodup :=
    ((sortSlice_perm parts).map Part.Number).nodup_iff.mpr hnd
  have heq : sortSlice arrival = sortSlice parts :=
    sorted_unique (hpa.trans (sortSlice_perm parts).symm) hndp (sortSlice_sorted arrival)
      (sortSlice_sorted parts)
  have hstrict := strict_of_sorted_nodup (sortSlice_sorted arrival) hnda
  have huniq : ∀ l : List Part, l.Perm parts →
      l.Pairwise (fun a b => a.Number ≤ b.Number) → l = sortSlice arrival := by
    intro l hl hs
    exact sorted_unique (hl.trans hpa.symm) hnda hs (sortSlice_sorted arrival)
  have hbody : completeMultipartUpload arrival = "<CompleteMultipartUpload>"
      ++ String.join ((sortSlice arrival).map (fun part => "<Part><PartNumber>"
          ++ fmtInt part.Number ++ "</PartNumber><ETag>" ++ part.ETag ++ "</ETag></Part>"))
      ++ "</CompleteMultipartUpload>" := by
    unfold completeMultipartUpload
    exact xmlBody_eq_join _
  refine ⟨heq, by unfold manifest; rw [heq], by unfold completeMultipartUpload; rw [heq],
    hstrict, ?_, hpa, fun p => hpa.mem_iff, ?_, huniq, ?_, ?_⟩
  · unfold manifest
    rw [List.pairwise_map]
    exact hstrict
  · intro p q hp hq hnum
    have hq2 : q ∈ parts := hpa.mem_iff.mp hq
    have hinj := List.inj_on_of_nodup_map hnd hq2 hp hnum
    rw [hinj]
  · exact ⟨sortSlice arrival, hpa, hstrict, rfl, hbody⟩
  · intro l hl hs
    rw [huniq l hl hs]
    exact ⟨rfl, hbody⟩

/-- Witness for C3: three parts with tags A, B, C arriving in the order 3, 1, 2. -/
theorem manifest_order_independent_witness :
    manifest [⟨3, "C"⟩, ⟨1, "A"⟩, ⟨2, "B"⟩] = manifest [⟨1, "A"⟩, ⟨2, "B"⟩, ⟨3, "C"⟩] ∧
      manifest [⟨3, "C"⟩, ⟨1, "A"⟩, ⟨2, "B"⟩] = [(1, "A"), (2, "B"), (3, "C")] ∧
      completeMultipartUpload [⟨3, "C"⟩, ⟨1, "A"⟩, ⟨2, "B"⟩] = "<CompleteMultipartUpload><Part><PartNumber>1</PartNumber><ETag>A</ETag></Part><Part><PartNumber>2</PartNumber><ETag>B</ETag></Part><Part><PartNumber>3</PartNumber><ETag>C</ETag></Part></CompleteMultipartUpload>" :=
  have h := manifest_order_independent [⟨1, "A"⟩, ⟨2, "B"⟩, ⟨3, "C"⟩]
    [⟨3, "C"⟩, ⟨1, "A"⟩, ⟨2, "B"⟩] (by decide) (by decide)
  ⟨h.2.1, (h.2.2.2.2.2.2.2.2.2.2 [⟨1, "A"⟩, ⟨2, "B"⟩, ⟨3, "C"⟩] (List.Perm.refl _)
      (by decide)).1,
    (h.2.2.2.2.2.2.2.2.2.2 [⟨1, "A"⟩, ⟨2, "B"⟩, ⟨3, "C"⟩] (List.Perm.refl _) (by decide)).2.trans
      rfl⟩


/-! ## Collection and the final check of performMultipartUpload -/

theorem foldl_append_singleton {α : Type} (l : List α) :
    ∀ init : List α, l.foldl (fun acc x => acc ++ [x]) init = init ++ l := by
  induction l with
  | nil => intro init; simp
  | cons a l ih => intro init; simp [List.foldl_cons, ih]

/-- The tail of performMultipartUpload once the file is open and its size is
known. -/
theorem performMultipartUpload_eq (file : FileEnv) (arrived : List Part)
    (hopen : file.openErr = none) (hstat : file.statErr = none) :
    performMultipartUpload file arrived =
      if numParts file.size partSize < 0 then .panicked "makechan: size out of range"
      else if (arrived.length : Int) ≠ numParts file.size partSize then
        .returned (.error ("error: expected " ++ fmtInt (numParts file.size partSize)
          ++ " parts, but only uploaded " ++ fmtInt arrived.length ++ " parts"))
      else .returned (.ok arrived) := by
  simp only [performMultipartUpload, hopen, hstat, foldl_append_singleton, List.nil_append]

theorem length_planParts (fileSize pSize : Int) :
    (planParts fileSize pSize).length = (numParts fileSize pSize).toNat := by
  rw [planParts_eq_map]; simp

theorem planStep_partNumber (fileSize pSize i : Int) :
    (planStep fileSize pSize i).partNumber = add64 i 1 := rfl

/-- The part numbers of the plan are 1, 2, ..., N for every file size. -/
theorem planParts_numbers (fileSize pSize : Int) :
    (planParts fileSize pSize).map Seg.partNumber
      = (List.range (numParts fileSize pSize).toNat).map (fun k : Nat => (k : Int) + 1) := by
  have hr := (isInt64_numParts fileSize pSize).2
  rw [planParts_eq_map, List.map_map]
  apply List.map_congr_left
  intro k hk
  have hk1 := List.mem_range.mp hk
  have hadd : add64 (k : Int) 1 = (k : Int) + 1 := by
    apply wrap64_of_isInt64 (x := (k : Int) + 1)
    unfold maxInt64 at hr
    unfold IsInt64 minInt64 maxInt64
    constructor <;> omega
  rw [Function.comp_apply, planStep_partNumber, hadd]

theorem length_filterMap_lt {α β : Type} (f : α → Option β) :
    ∀ l : List α, (∃ a, a ∈ l ∧ f a = none) → (l.filterMap f).length < l.length := by
  intro l
  induction l with
  | nil => rintro ⟨a, ha, _⟩; exact absurd ha (List.not_mem_nil a)
  | cons b l ih =>
    rintro ⟨a, ha, hfa⟩
    have hle := List.length_filterMap_le f l
    cases hfb : f b with
    | none =>
      rw [List.filterMap_cons_none hfb, List.length_cons]
      omega
    | some c =>
      rw [List.filterMap_cons_some hfb, List.length_cons, List.length_cons]
      rcases List.mem_cons.mp ha with rfl | hmem
      · rw [hfa] at hfb; cases hfb
      · have := ih ⟨a, hmem, hfa⟩
        omega

theorem map_filterMap_of_length_eq {α β γ : Type} (f : α → Option β) (g : β → γ) (h : α → γ)
    (hfg : ∀ a b, f a = some b → g b = h a) :
    ∀ l : List α, (l.filterMap f).length = l.length → (l.filterMap f).map g = l.map h := by
  intro l
  induction l with
  | nil => intro _; rfl
  | cons a l ih =>
    intro hlen
    have hle := List.length_filterMap_le f l
    cases hfa : f a with
    | none =>
      rw [List.filterMap_cons_none hfa, List.length_cons] at hlen
      omega
    | some b =>
      rw [List.filterMap_cons_some hfa, List.length_cons, List.length_cons] at hlen
      rw [List.filterMap_cons_some hfa, List.map_cons, List.map_cons, hfg a b hfa,
        ih (by omega)]

theorem worker_number {env : PartEnv} {seg : Seg} {part : Part}
    (h : worker env seg = some part) : part.Number = seg.partNumber := by
  unfold worker at h
  cases hr : env.readErr with
  | some e => rw [hr] at h; cases h
  | none =>
    rw [hr] at h
    cases hu : uploadPart env.upload seg.partNumber with
    | error e => rw [hu] at h; cases h
    | ok tag =>
      rw [hu] at h
      cases h
      rfl

theorem worker_eq_none_iff (env : PartEnv) (seg : Seg) :
    worker env seg = none ↔
      (env.readErr ≠ none ∨ ∃ e, uploadPart env.upload seg.partNumber = .error e) := by
  unfold worker
  cases hr : env.readErr with
  | some e => simp
  | none =>
    cases hu : uploadPart env.upload seg.partNumber with
    | error e => simp
    | ok tag => simp

/-- C4 (amended): if at least one dispatched part fails (its read or its
uploadPart call returns an error), performMultipartUpload returns an error,
which carries no parts, and main ends without calling completeMultipartUpload;
whenever the computed `numParts` is non-negative, which is the case for every
file size with `0 ≤ fileSize ≤ 2^63 - partSize`, performMultipartUpload returns
an error if and only if the number of collected parts differs from `numParts`;
when `numParts` is negative the channel creation panics, nothing is returned and
main does not call completeMultipartUpload either; main calls
completeMultipartUpload only when the two counts agree. -/
theorem failed_part_blocks_commit (file : FileEnv) (env : Int → PartEnv)
    (arrived : List Part) (hopen : file.openErr = none) (hstat : file.statErr = none)
    (harr : Arrival file env arrived) :
    ((∃ seg : Seg, seg ∈ planParts file.size partSize ∧
        ((env seg.partNumber).readErr ≠ none ∨
          ∃ e, uploadPart (env seg.partNumber).upload seg.partNumber = .error e)) →
      (∃ msg, performMultipartUpload file arrived = .returned (.error msg)) ∧
      (∃ msg, main file arrived = .uploadFailed msg) ∧
      (∀ parts, main file arrived ≠ .completeCalled parts)) ∧
    (0 ≤ numParts file.size partSize →
      ((∃ msg, performMultipartUpload file arrived = .returned (.error msg))
        ↔ (arrived.length : Int) ≠ numParts file.size partSize)) ∧
    (0 ≤ file.size → file.size ≤ 9223372036854775808 - partSize →
      0 ≤ numParts file.size partSize ∧
      ((∃ msg, performMultipartUpload file arrived = .returned (.error msg))
        ↔ (arrived.length : Int) ≠ numParts file.size partSize)) ∧
    (numParts file.size partSize < 0 →
      performMultipartUpload file arrived = .panicked "makechan: size out of range" ∧
      main file arrived = .crashed) ∧
    (∀ parts, main file arrived = .completeCalled parts →
      parts = arrived ∧ (arrived.length : Int) = numParts file.size partSize) := by
  have hpm := performMultipartUpload_eq file arrived hopen hstat
  have hlen : arrived.length = (published (planParts file.size partSize) env).length :=
    List.Perm.length_eq harr
  have hiff : 0 ≤ numParts file.size partSize →
      ((∃ msg, performMultipartUpload file arrived = .returned (.error msg))
        ↔ (arrived.length : Int) ≠ numParts file.size partSize) := by
    intro hnn
    rw [if_neg (not_lt.mpr hnn)] at hpm
    by_cases hne : (arrived.length : Int) ≠ numParts file.size partSize
    · rw [if_pos hne] at hpm
      exact ⟨fun _ => hne, fun _ => ⟨_, hpm⟩⟩
    · rw [if_neg hne] at hpm
      constructor
      · rintro ⟨msg, hmsg⟩
        rw [hpm] at hmsg
        cases hmsg
      · intro h; exact absurd h hne
  refine ⟨?_, hiff, ?_, ?_, ?_⟩
  · rintro ⟨seg, hseg, hfail⟩
    have hnone : worker (env seg.partNumber) seg = none :=
      (worker_eq_none_iff _ _).mpr hfail
    have hlt : (published (planParts file.size partSize) env).length
        < (planParts file.size partSize).length :=
      length_filterMap_lt _ _ ⟨seg, hseg, hnone⟩
    rw [length_planParts] at hlt
    have hnn : ¬ numParts file.size partSize < 0 := by omega
    have hne : (arrived.length : Int) ≠ numParts file.size partSize := by omega
    rw [if_neg hnn, if_pos hne] at hpm
    refine ⟨⟨_, hpm⟩, ?_, ?_⟩
    · unfold main
      rw [hpm]
      exact ⟨_, rfl⟩
    · intro parts hc
      unfold main at hc
      rw [hpm] at hc
      cases hc
  · intro hF hB
    have hP : (0 : Int) < partSize := by decide
    have hp : partSize = 5368709120 := by decide
    have hn := numParts_eq hF hP (by unfold maxInt64; omega)
    have hq0 : 0 ≤ (file.size + partSize - 1) / partSize :=
      Int.ediv_nonneg (by omega) (le_of_lt hP)
    have hnn : 0 ≤ numParts file.size partSize := by rw [hn]; exact hq0
    exact ⟨hnn, hiff hnn⟩
  · intro hneg
    rw [if_pos hneg] at hpm
    refine ⟨hpm, ?_⟩
    unfold main
    rw [hpm]
  · intro parts hc
    unfold main at hc
    by_cases hneg : numParts file.size partSize < 0
    · rw [if_pos hneg] at hpm
      rw [hpm] at hc
      cases hc
    · rw [if_neg hneg] at hpm
      by_cases hne : (arrived.length : Int) ≠ numParts file.size partSize
      · rw [if_pos hne] at hpm
        rw [hpm] at hc
        cases hc
      · rw [if_neg hne] at hpm
        rw [hpm] at hc
        cases hc
        exact ⟨rfl, not_not.mp hne⟩

/-- Witness for C4: a file of 12000000000 bytes, part 2 of 3 rejected by the
store, parts 3 and 1 arriving in that order. -/
theorem failed_part_blocks_commit_witness :
    Arrival ⟨none, none, 12000000000⟩ partTwoFails [⟨3, "C"⟩, ⟨1, "A"⟩] ∧
      (∃ msg, performMultipartUpload ⟨none, none, 12000000000⟩ [⟨3, "C"⟩, ⟨1, "A"⟩]
        = .returned (.error msg)) ∧
      (∀ parts, main ⟨none, none, 12000000000⟩ [⟨3, "C"⟩, ⟨1, "A"⟩]
        ≠ .completeCalled parts) :=
  have h := (failed_part_blocks_commit ⟨none, none, 12000000000⟩ partTwoFails
    [⟨3, "C"⟩, ⟨1, "A"⟩] rfl rfl (by decide)).1
    ⟨⟨2, 5368709120, 10737418240⟩, by decide, Or.inr ⟨_, rfl⟩⟩
  ⟨by decide, h.1, h.2.2⟩

/-- C4 (as stated) fails: for a file of `2^63 - 1` bytes nothing is dispatched
and nothing is collected, the count 0 differs from `numParts = -1717986917`,
and performMultipartUpload panics at the channel creation instead of returning
an error. -/
theorem failed_part_blocks_commit_counterexample :
    Arrival ⟨none, none, 9223372036854775807⟩ allSucceed [] ∧
      numParts 9223372036854775807 partSize = -1717986917 ∧
      ((([] : List Part).length : Int) ≠ numParts 9223372036854775807 partSize) ∧
      performMultipartUpload ⟨none, none, 9223372036854775807⟩ []
        = .panicked "makechan: size out of range" ∧
      ¬ ((∃ msg, performMultipartUpload ⟨none, none, 9223372036854775807⟩ []
            = .returned (.error msg))
          ↔ (([] : List Part).length : Int) ≠ numParts 9223372036854775807 partSize) := by
  have hp : performMultipartUpload ⟨none, none, 9223372036854775807⟩ []
      = .panicked "makechan: size out of range" := rfl
  have hne : (([] : List Part).length : Int) ≠ numParts 9223372036854775807 partSize := by
    decide
  refine ⟨by decide, by decide, hne, hp, ?_⟩
  intro hiff
  obtain ⟨msg, hmsg⟩ := hiff.mpr hne
  rw [hp] at hmsg
  cases hmsg

/-- C5: whenever performMultipartUpload returns successfully, for every choice
of worker results and every arrival order, the returned list has length
N = numParts, which is the number of planned segments, and its part numbers are
exactly 1, ..., N, each occurring once; hence the manifest that
completeMultipartUpload sends lists the part numbers 1, 2, ..., N in that
order. -/
theorem success_lists_all_parts (file : FileEnv) (env : Int → PartEnv)
    (arrived parts : List Part) (harr : Arrival file env arrived)
    (hok : performMultipartUpload file arrived = .returned (.ok parts)) :
    parts = arrived ∧
    (parts.length : Int) = numParts file.size partSize ∧
    parts.length = (planParts file.size partSize).length ∧
    (parts.map Part.Number).Perm
      ((List.range parts.length).map (fun k : Nat => (k : Int) + 1)) ∧
    (parts.map Part.Number).Nodup ∧
    (sortSlice parts).map Part.Number
      = (List.range parts.length).map (fun k : Nat => (k : Int) + 1) ∧
    (manifest parts).map Prod.fst
      = (List.range parts.length).map (fun k : Nat => (k : Int) + 1) := by
  have hopen : file.openErr = none := by
    cases h : file.openErr with
    | none => rfl
    | some e => simp only [performMultipartUpload, h] at hok; cases hok
  have hstat : file.statErr = none := by
    cases h : file.statErr with
    | none => rfl
    | some e => simp only [performMultipartUpload, hopen, h] at hok; cases hok
  rw [performMultipartUpload_eq file arrived hopen hstat] at hok
  have hnn : ¬ numParts file.size partSize < 0 := by
    intro hneg
    rw [if_pos hneg] at hok
    cases hok
  rw [if_neg hnn] at hok
  have heq : (arrived.length : Int) = numParts file.size partSize := by
    by_contra hne
    rw [if_pos hne] at hok
    cases hok
  rw [if_neg (not_not.mpr heq)] at hok
  have hpa : parts = arrived := by cases hok; rfl
  subst hpa
  have hlenp : parts.length = (published (planParts file.size partSize) env).length :=
    List.Perm.length_eq harr
  have hlen : parts.length = (planParts file.size partSize).length := by
    rw [length_planParts]; omega
  have hnum : (published (planParts file.size partSize) env).map Part.Number
      = (List.range parts.length).map (fun k : Nat => (k : Int) + 1) := by
    unfold published
    rw [map_filterMap_of_length_eq _ Part.Number Seg.partNumber
      (fun a b h => worker_number h) _ (by unfold published at hlenp; omega),
      planParts_numbers, hlen, length_planParts]
  have hperm : (parts.map Part.Number).Perm
      ((List.range parts.length).map (fun k : Nat => (k : Int) + 1)) := by
    rw [← hnum]
    exact harr.map Part.Number
  have hinj : Function.Injective (fun k : Nat => (k : Int) + 1) := by
    intro a b hab
    simp only at hab
    omega
  have hnd : (parts.map Part.Number).Nodup :=
    hperm.nodup_iff.mpr ((List.nodup_range _).map hinj)
  have hsorted : ((sortSlice parts).map Part.Number).Pairwise (fun a b => a ≤ b) :=
    List.pairwise_map.mpr (sortSlice_sorted parts)
  have htarget : ((List.range parts.length).map (fun k : Nat => (k : Int) + 1)).Pairwise
      (fun a b => a ≤ b) := by
    rw [List.pairwise_map]
    exact (List.pairwise_lt_range _).imp (fun h => by omega)
  have hsort : (sortSlice parts).map Part.Number
      = (List.range parts.length).map (fun k : Nat => (k : Int) + 1) :=
    List.eq_of_perm_of_sorted (((sortSlice_perm parts).map Part.Number).trans hperm)
      hsorted htarget
  refine ⟨rfl, heq, hlen, hperm, hnd, hsort, ?_⟩
  unfold manifest
  rw [List.map_map, ← hsort]
  rfl

/-- Witness for C5: a file of 12000000000 bytes whose three parts all succeed
and arrive in the order 3, 1, 2. -/
theorem success_lists_all_parts_witness :
    Arrival ⟨none, none, 12000000000⟩ allSucceed [⟨3, "C"⟩, ⟨1, "A"⟩, ⟨2, "B"⟩] ∧
      performMultipartUpload ⟨none, none, 12000000000⟩ [⟨3, "C"⟩, ⟨1, "A"⟩, ⟨2, "B"⟩]
        = .returned (.ok [⟨3, "C"⟩, ⟨1, "A"⟩, ⟨2, "B"⟩]) ∧
      (manifest [⟨3, "C"⟩, ⟨1, "A"⟩, ⟨2, "B"⟩]).map Prod.fst
        = (List.range 3).map (fun k : Nat => (k : Int) + 1) ∧
      manifest [⟨3, "C"⟩, ⟨1, "A"⟩, ⟨2, "B"⟩] = [(1, "A"), (2, "B"), (3, "C")] :=
  ⟨by decide, rfl,
    (success_lists_all_parts ⟨none, none, 12000000000⟩ allSucceed
      [⟨3, "C"⟩, ⟨1, "A"⟩, ⟨2, "B"⟩] [⟨3, "C"⟩, ⟨1, "A"⟩, ⟨2, "B"⟩] (by decide) rfl).2.2.2.2.2.2,
    by decide⟩

/-- C7 (amended): for `fileSize = 0` the planning computes `numParts = 0` and no
triple; nothing is dispatched, so nothing arrives; the count check passes with
0 = 0, performMultipartUpload returns an empty list without error, and main
calls completeMultipartUpload with it, whose body then holds no `Part` entry. -/
theorem zero_size_plans_nothing (file : FileEnv) (env : Int → PartEnv) (arrived : List Part)
    (hopen : file.openErr = none) (hstat : file.statErr = none) (hsize : file.size = 0)
    (harr : Arrival file env arrived) :
    numParts file.size partSize = 0 ∧
    planParts file.size partSize = [] ∧
    arrived = [] ∧
    performMultipartUpload file arrived = .returned (.ok []) ∧
    main file arrived = .completeCalled [] ∧
    completeMultipartUpload [] = "<CompleteMultipartUpload></CompleteMultipartUpload>" := by
  have hn : numParts file.size partSize = 0 := by rw [hsize]; decide
  have hp : planParts file.size partSize = [] := by rw [hsize]; decide
  have ha : arrived = [] := by
    unfold Arrival at harr
    rw [hp] at harr
    exact List.Perm.eq_nil harr
  have hpm := performMultipartUpload_eq file arrived hopen hstat
  rw [hn, ha] at hpm
  have hpm2 : performMultipartUpload file [] = .returned (.ok []) := by
    rw [hpm]; rfl
  refine ⟨hn, hp, ha, by rw [ha]; exact hpm2, ?_, by decide⟩
  unfold main
  rw [ha, hpm2]

/-- Witness for C7: the empty file, opened and measured without error. -/
theorem zero_size_plans_nothing_witness :
    Arrival ⟨none, none, 0⟩ allSucceed [] ∧
      performMultipartUpload ⟨none, none, 0⟩ [] = .returned (.ok []) ∧
      main ⟨none, none, 0⟩ [] = .completeCalled [] :=
  have h := zero_size_plans_nothing ⟨none, none, 0⟩ allSucceed [] rfl rfl rfl (by decide)
  ⟨by decide, h.2.2.2.1, h.2.2.2.2.1⟩

/-- C7 (as stated) fails: for `fileSize = 0` performMultipartUpload neither
returns an error nor plans the single zero-length part `(1, [0, 0))`; it plans
zero parts, returns successfully, and main goes on to completeMultipartUpload
with an empty manifest. -/
theorem zero_size_counterexample :
    ¬ ((∃ msg, performMultipartUpload ⟨none, none, 0⟩ [] = .returned (.error msg)) ∨
        planParts 0 partSize = [⟨1, 0, 0⟩]) ∧
      planParts 0 partSize = [] ∧
      performMultipartUpload ⟨none, none, 0⟩ [] = .returned (.ok []) ∧
      main ⟨none, none, 0⟩ [] = .completeCalled [] ∧
      completeMultipartUpload []
        = "<CompleteMultipartUpload></CompleteMultipartUpload>" := by
  refine ⟨?_, by decide, rfl, rfl, by decide⟩
  rintro (⟨msg, hmsg⟩ | h)
  · have : performMultipartUpload ⟨none, none, 0⟩ [] = .returned (.ok []) := rfl
    rw [this] at hmsg
    cases hmsg
  · revert h
    decide


/-! ## Reading a body back -/

theorem expect_append (pre rest : List Char) : expect pre (pre ++ rest) = some rest := by
  induction pre with
  | nil => cases rest <;> rfl
  | cons c cs ih => simp [expect, ih]

theorem skipSpace_lt (x : List Char) : skipSpace ('<' :: x) = '<' :: x := by
  have h : isXmlSpace '<' = false := by decide
  simp [skipSpace, List.dropWhile, h]

theorem digitChar_isDigit {d : Nat} (hd : d < 10) : (Nat.digitChar d).isDigit = true := by
  interval_cases d <;> rfl

theorem digitChar_value {d : Nat} (hd : d < 10) : (Nat.digitChar d).toNat - 48 = d := by
  interval_cases d <;> rfl

theorem readNat_append_singleton (l : List Char) (c : Char) :
    readNat (l ++ [c]) = readNat l * 10 + (c.toNat - 48) := by
  unfold readNat
  rw [List.foldl_append]
  rfl

theorem natDigits_spec : ∀ (fuel n : Nat), n < fuel →
    readNat (natDigits fuel n) = n ∧ natDigits fuel n ≠ [] ∧
      ∀ c, c ∈ natDigits fuel n → c.isDigit = true := by
  intro fuel
  induction fuel with
  | zero => intro n hn; omega
  | succ fuel ih =>
    intro n hn
    unfold natDigits
    by_cases h10 : n < 10
    · rw [if_pos h10]
      refine ⟨?_, by simp, ?_⟩
      · have := readNat_append_singleton [] (Nat.digitChar n)
        simp only [List.nil_append] at this
        rw [this, digitChar_value h10]
        show 0 * 10 + n = n
        omega
      · intro c hc
        rw [List.mem_singleton] at hc
        rw [hc]
        exact digitChar_isDigit h10
    · rw [if_neg h10]
      have hrec := ih (n / 10) (by omega)
      have hmod : n % 10 < 10 := Nat.mod_lt n (by decide)
      refine ⟨?_, by simp, ?_⟩
      · rw [readNat_append_singleton, hrec.1, digitChar_value hmod]
        omega
      · intro c hc
        rcases List.mem_append.mp hc with h | h
        · exact hrec.2.2 c h
        · rw [List.mem_singleton] at h
          rw [h]
          exact digitChar_isDigit hmod

theorem fmtNat_spec (n : Nat) :
    readNat (fmtNat n) = n ∧ fmtNat n ≠ [] ∧ ∀ c, c ∈ fmtNat n → c.isDigit = true :=
  natDigits_spec (n + 1) n (Nat.lt_succ_self n)

/-- Reading back a formatted integer. -/
theorem readInt_fmtInt (z : Int) : readInt (fmtInt z).data = some z := by
  cases z with
  | ofNat n =>
    obtain ⟨hval, hne, hdig⟩ := fmtNat_spec n
    have hdata : (fmtInt (Int.ofNat n)).data = fmtNat n := rfl
    rw [hdata]
    have hall : (fmtNat n).all Char.isDigit = true := List.all_eq_true.mpr hdig
    cases hf : fmtNat n with
    | nil => exact absurd hf hne
    | cons c cs =>
      have hc : c ≠ '-' := by
        intro hminus
        have := hdig c (by rw [hf]; exact List.mem_cons_self c cs)
        rw [hminus] at this
        exact absurd this (by decide)
      rw [hf] at hall hval
      have hunf : readInt (c :: cs) =
          if (c :: cs) ≠ [] ∧ (c :: cs).all Char.isDigit = true then
            some ((readNat (c :: cs) : Nat) : Int) else none := by
        unfold readInt
        split
        · next heq =>
          simp only [List.cons.injEq] at heq
          exact absurd heq.1 hc
        · rfl
      rw [hunf, if_pos ⟨List.cons_ne_nil c cs, hall⟩, hval]
      rfl
  | negSucc n =>
    obtain ⟨hval, hne, hdig⟩ := fmtNat_spec (n + 1)
    have hdata : (fmtInt (Int.negSucc n)).data = '-' :: fmtNat (n + 1) := rfl
    have hall : (fmtNat (n + 1)).all Char.isDigit = true := List.all_eq_true.mpr hdig
    rw [hdata]
    simp only [readInt]
    rw [if_pos ⟨hne, hall⟩, hval]
    rfl

theorem literalChar_of_isDigit {c : Char} (h : c.isDigit = true) :
    LiteralChar c ∧ c ≠ '>' := by
  have h1 : 48 ≤ c.toNat ∧ c.toNat ≤ 57 := by
    simp only [Char.isDigit, Bool.and_eq_true, decide_eq_true_eq] at h
    exact ⟨by exact_mod_cast h.1, by exact_mod_cast h.2⟩
  refine ⟨⟨?_, ?_, ?_, ?_⟩, ?_⟩
  · intro hc; rw [hc] at h1; revert h1; decide
  · intro hc; rw [hc] at h1; revert h1; decide
  · omega
  · unfold isXmlChar
    have : decide (32 ≤ c.toNat) = true := decide_eq_true (by omega)
    have h2 : (c.toNat != 65534) = true := by simp; omega
    have h3 : (c.toNat != 65535) = true := by simp; omega
    simp [this, h2, h3]
  · intro hc; rw [hc] at h1; revert h1; decide

theorem literalChar_minus : LiteralChar '-' ∧ '-' ≠ '>' := by decide

/-- The characters that `%d` writes are literal character data without `>`. -/
theorem fmtInt_literal (z : Int) :
    ∀ c, c ∈ (fmtInt z).data → LiteralChar c ∧ c ≠ '>' := by
  cases z with
  | ofNat n =>
    intro c hc
    exact literalChar_of_isDigit ((fmtNat_spec n).2.2 c hc)
  | negSucc n =>
    intro c hc
    have hdata : (fmtInt (Int.negSucc n)).data = '-' :: fmtNat (n + 1) := rfl
    rw [hdata] at hc
    rcases List.mem_cons.mp hc with rfl | h
    · exact literalChar_minus
    · exact literalChar_of_isDigit ((fmtNat_spec (n + 1)).2.2 c h)

theorem cdataEndFree_of_no_gt : ∀ (l : List Char) (b : Nat), (∀ c, c ∈ l → c ≠ '>') →
    cdataEndFree b l = true := by
  intro l
  induction l with
  | nil => intro b _; rfl
  | cons c cs ih =>
    intro b h
    have hc : c ≠ '>' := h c (List.mem_cons_self c cs)
    unfold cdataEndFree
    rw [if_neg (fun hh => hc hh.1)]
    exact ih _ (fun d hd => h d (List.mem_cons_of_mem c hd))

/-- When the scan refuses a text, the sequence `]]>` occurs in it, the `b`
characters `]` before the text counted in. -/
theorem occurs_of_cdataEndFree_false : ∀ (l : List Char) (b : Nat),
    cdataEndFree b l = false →
      List.IsInfix "]]>".toList (List.replicate b ']' ++ l) := by
  intro l
  induction l with
  | nil => intro b h; simp [cdataEndFree] at h
  | cons c cs ih =>
    intro b h
    unfold cdataEndFree at h
    by_cases hc : c = '>' ∧ 2 ≤ b
    · obtain ⟨rfl, hb⟩ := hc
      obtain ⟨k, rfl⟩ : ∃ k, b = k + 2 := ⟨b - 2, by omega⟩
      refine ⟨List.replicate k ']', cs, ?_⟩
      have : List.replicate (k + 2) ']' = List.replicate k ']' ++ [']', ']'] := by
        rw [List.replicate_add]; rfl
      rw [this]
      simp
    · rw [if_neg hc] at h
      have hrec := ih _ h
      by_cases hb : c = ']'
      · rw [if_pos hb] at hrec
        rw [hb]
        have : List.replicate (b + 1) ']' ++ cs = List.replicate b ']' ++ ']' :: cs := by
          rw [List.replicate_succ', List.append_assoc]; rfl
        rw [this] at hrec
        exact hrec
      · rw [if_neg hb] at hrec
        simp only [List.replicate_zero, List.nil_append] at hrec
        exact hrec.trans ((List.suffix_cons c cs).isInfix.trans
          (List.suffix_append _ _).isInfix)

theorem cdataEndFree_of_absent {l : List Char}
    (h : ¬ List.IsInfix "]]>".toList l) : cdataEndFree 0 l = true := by
  by_contra hc
  have hf : cdataEndFree 0 l = false := by
    cases hv : cdataEndFree 0 l with
    | true => exact absurd hv hc
    | false => rfl
  have := occurs_of_cdataEndFree_false l 0 hf
  simp only [List.replicate_zero, List.nil_append] at this
  exact h this

theorem readText_cons (fuel b : Nat) (c : Char) (rest : List Char) :
    readText (fuel + 1) b (c :: rest) =
      if c = '<' then some ([], c :: rest)
      else if c = '&' then
        match readEntity rest with
        | none => none
        | some (d, rest1) => (readText fuel 0 rest1).map (fun r => (d :: r.1, r.2))
      else if c.toNat = 13 then
        (readText fuel 0
            (match rest with
             | [] => []
             | d :: rest1 => if d.toNat = 10 then rest1 else d :: rest1)).map
          (fun r => (Char.ofNat 10 :: r.1, r.2))
      else if c = '>' ∧ 2 ≤ b then none
      else if isXmlChar c = true then
        (readText fuel (if c = ']' then b + 1 else 0) rest).map (fun r => (c :: r.1, r.2))
      else none := rfl

/-- Literal character data is read as it stands, up to the next `<`. -/
theorem readText_literal : ∀ (l : List Char) (fuel b : Nat) (R : List Char),
    l.length < fuel → (∀ c, c ∈ l → LiteralChar c) → cdataEndFree b l = true →
      readText fuel b (l ++ '<' :: R) = some (l, '<' :: R) := by
  intro l
  induction l with
  | nil =>
    intro fuel b R hfuel _ _
    obtain ⟨f, rfl⟩ : ∃ f, fuel = f + 1 := ⟨fuel - 1, by simp at hfuel; omega⟩
    rw [List.nil_append, readText_cons, if_pos rfl]
  | cons c cs ih =>
    intro fuel b R hfuel hlit hfree
    obtain ⟨f, rfl⟩ : ∃ f, fuel = f + 1 := ⟨fuel - 1, by omega⟩
    obtain ⟨h1, h2, h3, h4⟩ := hlit c (List.mem_cons_self c cs)
    unfold cdataEndFree at hfree
    have h5 : ¬ (c = '>' ∧ 2 ≤ b) := by
      intro hh
      rw [if_pos hh] at hfree
      cases hfree
    rw [if_neg h5] at hfree
    have hrec := ih f (if c = ']' then b + 1 else 0) R (by simp at hfuel; omega)
      (fun d hd => hlit d (List.mem_cons_of_mem c hd)) hfree
    rw [List.cons_append, readText_cons, if_neg h1, if_neg h2, if_neg h3, if_neg h5, if_pos h4,
      hrec]
    rfl

theorem partEntry_data (part : Part) : (partEntry part).data = entryChars part := by
  unfold partEntry entryChars
  simp only [String.data_append, List.append_assoc]
  rfl

theorem foldl_partEntry_data (parts : List Part) : ∀ init : String,
    (parts.foldl (fun acc part => acc ++ partEntry part) init).data
      = init.data ++ entriesChars parts := by
  induction parts with
  | nil => intro init; simp [entriesChars]
  | cons p ps ih =>
    intro init
    rw [List.foldl_cons, ih, String.data_append, partEntry_data, entriesChars,
      List.append_assoc]

theorem xmlBody_data (parts : List Part) :
    (xmlBody parts).data = bodyOpen ++ (entriesChars parts ++ bodyClose) := by
  unfold xmlBody
  rw [String.data_append, foldl_partEntry_data, List.append_assoc]
  rfl

theorem bodyOpen_cons : bodyOpen = '<' :: "CompleteMultipartUpload>".toList := rfl

theorem bodyClose_cons : bodyClose = '<' :: "/CompleteMultipartUpload>".toList := rfl

theorem partOpen_cons : partOpen = '<' :: "Part>".toList := rfl

theorem partClose_cons : partClose = '<' :: "/Part>".toList := rfl

theorem numberOpen_cons : numberOpen = '<' :: "PartNumber>".toList := rfl

theorem numberClose_cons : numberClose = '<' :: "/PartNumber>".toList := rfl

theorem etagOpen_cons : etagOpen = '<' :: "ETag>".toList := rfl

theorem etagClose_cons : etagClose = '<' :: "/ETag>".toList := rfl

theorem expect_bodyClose_partOpen (x : List Char) : expect bodyClose (partOpen ++ x) = none :=
  rfl

/-- What follows an entry starts with `<`: the next entry or the end tag. -/
theorem entries_tail_cons (parts : List Part) :
    ∃ x, entriesChars parts ++ bodyClose = '<' :: x := by
  cases parts with
  | nil => exact ⟨_, by rw [entriesChars, List.nil_append, bodyClose_cons]⟩
  | cons p ps =>
    rw [entriesChars, entryChars, partOpen_cons]
    simp only [List.cons_append, List.append_assoc]
    exact ⟨_, rfl⟩

theorem readEntries_step (fuel : Nat) (part : Part) (hsafe : TagSafe part) (x : List Char) :
    readEntries (fuel + 1) (entryChars part ++ '<' :: x) =
      match readEntries fuel ('<' :: x) with
      | none => none
      | some rest => some ((part.Number, part.ETag) :: rest) := by
  have hshape : entryChars part ++ '<' :: x
      = partOpen ++ (numberOpen ++ ((fmtInt part.Number).data ++ (numberClose ++ (etagOpen
          ++ (part.ETag.data ++ (etagClose ++ (partClose ++ '<' :: x))))))) := by
    unfold entryChars
    simp only [List.append_assoc]
  have hsk0 : skipSpace (entryChars part ++ '<' :: x) = entryChars part ++ '<' :: x := by
    rw [hshape, partOpen_cons, List.cons_append, skipSpace_lt]
  have e1 : expect bodyClose (skipSpace (entryChars part ++ '<' :: x)) = none := by
    rw [hsk0, hshape]; exact expect_bodyClose_partOpen _
  have e2 : expect partOpen (skipSpace (entryChars part ++ '<' :: x))
      = some (numberOpen ++ ((fmtInt part.Number).data ++ (numberClose ++ (etagOpen
          ++ (part.ETag.data ++ (etagClose ++ (partClose ++ '<' :: x))))))) := by
    rw [hsk0, hshape]; exact expect_append _ _
  have e3 : expect numberOpen (skipSpace (numberOpen ++ ((fmtInt part.Number).data
      ++ (numberClose ++ (etagOpen ++ (part.ETag.data ++ (etagClose
          ++ (partClose ++ '<' :: x))))))))
      = some ((fmtInt part.Number).data ++ (numberClose ++ (etagOpen
          ++ (part.ETag.data ++ (etagClose ++ (partClose ++ '<' :: x)))))) := by
    have : skipSpace (numberOpen ++ ((fmtInt part.Number).data
        ++ (numberClose ++ (etagOpen ++ (part.ETag.data ++ (etagClose
          ++ (partClose ++ '<' :: x)))))))
        = numberOpen ++ ((fmtInt part.Number).data
        ++ (numberClose ++ (etagOpen ++ (part.ETag.data ++ (etagClose
          ++ (partClose ++ '<' :: x)))))) := by
      rw [numberOpen_cons, List.cons_append, skipSpace_lt]
    rw [this]; exact expect_append _ _
  have hnc : ∀ y : List Char, numberClose ++ y = '<' :: ("/PartNumber>".toList ++ y) := by
    intro y; rw [numberClose_cons, List.cons_append]
  have hec : ∀ y : List Char, etagClose ++ y = '<' :: ("/ETag>".toList ++ y) := by
    intro y; rw [etagClose_cons, List.cons_append]
  have e4 : ∀ f : Nat, (fmtInt part.Number).data.length < f →
      readText f 0 ((fmtInt part.Number).data ++ (numberClose ++ (etagOpen
          ++ (part.ETag.data ++ (etagClose ++ (partClose ++ '<' :: x))))))
      = some ((fmtInt part.Number).data, numberClose ++ (etagOpen
          ++ (part.ETag.data ++ (etagClose ++ (partClose ++ '<' :: x))))) := by
    intro f hf
    rw [hnc]
    exact readText_literal _ f 0 _ hf (fun c hc => (fmtInt_literal part.Number c hc).1)
      (cdataEndFree_of_no_gt _ 0 (fun c hc => (fmtInt_literal part.Number c hc).2))
  have e5 : expect numberClose (numberClose ++ (etagOpen
      ++ (part.ETag.data ++ (etagClose ++ (partClose ++ '<' :: x)))))
      = some (etagOpen ++ (part.ETag.data ++ (etagClose ++ (partClose ++ '<' :: x)))) :=
    expect_append _ _
  have e6 : expect etagOpen (skipSpace (etagOpen
      ++ (part.ETag.data ++ (etagClose ++ (partClose ++ '<' :: x)))))
      = some (part.ETag.data ++ (etagClose ++ (partClose ++ '<' :: x))) := by
    have : skipSpace (etagOpen ++ (part.ETag.data ++ (etagClose ++ (partClose ++ '<' :: x))))
        = etagOpen ++ (part.ETag.data ++ (etagClose ++ (partClose ++ '<' :: x))) := by
      rw [etagOpen_cons, List.cons_append, skipSpace_lt]
    rw [this]; exact expect_append _ _
  have e7 : ∀ f : Nat, part.ETag.data.length < f →
      readText f 0 (part.ETag.data ++ (etagClose ++ (partClose ++ '<' :: x)))
      = some (part.ETag.data, etagClose ++ (partClose ++ '<' :: x)) := by
    intro f hf
    rw [hec]
    exact readText_literal _ f 0 _ hf hsafe.1 (cdataEndFree_of_absent hsafe.2)
  have e8 : expect etagClose (etagClose ++ (partClose ++ '<' :: x))
      = some (partClose ++ '<' :: x) := expect_append _ _
  have e9 : expect partClose (skipSpace (partClose ++ '<' :: x)) = some ('<' :: x) := by
    have : skipSpace (partClose ++ '<' :: x) = partClose ++ '<' :: x := by
      rw [partClose_cons, List.cons_append, skipSpace_lt]
    rw [this]; exact expect_append _ _
  have e4a := e4 (((fmtInt part.Number).data ++ (numberClose ++ (etagOpen
      ++ (part.ETag.data ++ (etagClose ++ (partClose ++ '<' :: x)))))).length + 1)
    (by rw [List.length_append]; omega)
  have e7a := e7 ((part.ETag.data ++ (etagClose ++ (partClose ++ '<' :: x))).length + 1)
    (by rw [List.length_append]; omega)
  have e10 : readInt (fmtInt part.Number).data = some part.Number := readInt_fmtInt _
  rw [readEntries]
  simp only [e1, e2, e3, e4a, e5, e6, e7a, e8, e9, e10]

theorem readEntries_entries (parts : List Part) : ∀ fuel : Nat, parts.length < fuel →
    (∀ part, part ∈ parts → TagSafe part) →
    readEntries fuel (entriesChars parts ++ bodyClose)
      = some (parts.map (fun part => (part.Number, part.ETag))) := by
  induction parts with
  | nil =>
    intro fuel hfuel _
    obtain ⟨f, rfl⟩ : ∃ f, fuel = f + 1 := ⟨fuel - 1, by simp at hfuel; omega⟩
    rfl
  | cons p ps ih =>
    intro fuel hfuel hsafe
    obtain ⟨f, rfl⟩ : ∃ f, fuel = f + 1 := ⟨fuel - 1, by omega⟩
    have hrec := ih f (by simp at hfuel; omega)
      (fun q hq => hsafe q (List.mem_cons_of_mem p hq))
    obtain ⟨x, hx⟩ := entries_tail_cons ps
    rw [entriesChars, List.append_assoc, hx,
      readEntries_step f p (hsafe p (List.mem_cons_self p ps)), ← hx, hrec]
    rfl

theorem length_entriesChars (parts : List Part) : parts.length ≤ (entriesChars parts).length := by
  induction parts with
  | nil => simp
  | cons p ps ih =>
    have : 1 ≤ (entryChars p).length := by
      unfold entryChars
      rw [List.length_append]
      have : partOpen.length = 6 := rfl
      omega
    rw [entriesChars, List.length_append, List.length_cons]
    omega

theorem readBody_xmlBody (parts : List Part) (hsafe : ∀ part, part ∈ parts → TagSafe part) :
    readBody (xmlBody parts) = some (parts.map (fun part => (part.Number, part.ETag))) := by
  unfold readBody
  have h1 : (xmlBody parts).toList = bodyOpen ++ (entriesChars parts ++ bodyClose) :=
    xmlBody_data parts
  have h2 : skipSpace (bodyOpen ++ (entriesChars parts ++ bodyClose))
      = bodyOpen ++ (entriesChars parts ++ bodyClose) := by
    rw [bodyOpen_cons, List.cons_append, skipSpace_lt]
  rw [h1, h2, expect_append]
  apply readEntries_entries parts _ _ hsafe
  have := length_entriesChars parts
  rw [List.length_append]
  omega

/-! ## The completion body -/

theorem pairs_injective : Function.Injective (fun part : Part => (part.Number, part.ETag)) := by
  intro a b h
  cases a
  cases b
  simp only [Prod.mk.injEq] at h
  rw [h.1, h.2]

/-- Outside literal character data the body does not read back to the pairs
written: an ETag `a&amp;b` is read as `a&b`, and the ETags `a&b` and `a]]>b`
make the body unreadable; white space between the elements is ignored. -/
theorem readBody_examples :
    readBody (xmlBody [⟨1, "a&amp;b"⟩]) = some [(1, "a&b")] ∧
      readBody (xmlBody [⟨1, "a&b"⟩]) = none ∧
      readBody (xmlBody [⟨1, "a]]>b"⟩]) = none ∧
      readBody (xmlBody [⟨1, "a>b]]"⟩]) = some [(1, "a>b]]")] ∧
      readBody "<CompleteMultipartUpload> <Part> <PartNumber>7</PartNumber> <ETag>x</ETag> </Part> </CompleteMultipartUpload> "
        = some [(7, "x")] := by
  refine ⟨?_, ?_, ?_, ?_, ?_⟩ <;> rfl

/-- C8 (amended): for every ordered list of parts whose ETag strings are literal
XML character data (every character is allowed in XML and is neither `<`, `&`
nor a carriage return, and the sequence `]]>` does not occur), reading the body
built from it back as XML yields the same ordered `(part number, ETag)` pairs;
in particular the body that completeMultipartUpload sends reads back to its
manifest, and two different lists of such parts never serialise to the same
body. -/
theorem xmlBody_roundtrip (parts : List Part) (hsafe : ∀ part, part ∈ parts → TagSafe part) :
    readBody (xmlBody parts) = some (parts.map (fun part => (part.Number, part.ETag))) ∧
    readBody (completeMultipartUpload parts) = some (manifest parts) ∧
    (∀ other : List Part, (∀ part, part ∈ other → TagSafe part) →
      xmlBody other = xmlBody parts → other = parts) := by
  refine ⟨readBody_xmlBody parts hsafe, ?_, ?_⟩
  · unfold completeMultipartUpload manifest
    apply readBody_xmlBody
    intro part hpart
    exact hsafe part ((sortSlice_perm parts).mem_iff.mp hpart)
  · intro other hother heq
    have h1 := readBody_xmlBody other hother
    rw [heq, readBody_xmlBody parts hsafe] at h1
    exact (List.map_injective_iff.mpr pairs_injective (Option.some.inj h1)).symm

/-- Witness for C8: the manifest of the three-part scenario. -/
theorem xmlBody_roundtrip_witness :
    (∀ part, part ∈ [(⟨1, "A"⟩ : Part), ⟨2, "B"⟩, ⟨3, "C"⟩] → TagSafe part) ∧
      readBody (xmlBody [⟨1, "A"⟩, ⟨2, "B"⟩, ⟨3, "C"⟩]) = some [(1, "A"), (2, "B"), (3, "C")] :=
  ⟨by decide, (xmlBody_roundtrip [⟨1, "A"⟩, ⟨2, "B"⟩, ⟨3, "C"⟩] (by decide)).1⟩

/-- C8 (as stated) fails: the one-entry manifest whose non-empty ETag is
`a</ETag></Part><Part><PartNumber>2</PartNumber><ETag>b` and the two-entry
manifest `(1, a), (2, b)` are different and serialise to the same body, so no
way of reading bodies returns the pairs of every manifest with non-empty
ETags. -/
theorem xmlBody_roundtrip_counterexample :
    ([⟨1, "a</ETag></Part><Part><PartNumber>2</PartNumber><ETag>b"⟩] : List Part)
        ≠ [⟨1, "a"⟩, ⟨2, "b"⟩] ∧
      xmlBody [⟨1, "a</ETag></Part><Part><PartNumber>2</PartNumber><ETag>b"⟩]
        = xmlBody [⟨1, "a"⟩, ⟨2, "b"⟩] ∧
      ¬ ∃ read : String → Option (List (Int × String)),
        ∀ parts : List Part, (∀ part, part ∈ parts → part.ETag ≠ "") →
          read (xmlBody parts) = some (parts.map (fun part => (part.Number, part.ETag))) := by
  have hbody : xmlBody [⟨1, "a</ETag></Part><Part><PartNumber>2</PartNumber><ETag>b"⟩]
      = xmlBody [⟨1, "a"⟩, ⟨2, "b"⟩] := by decide
  refine ⟨by decide, hbody, ?_⟩
  rintro ⟨read, hread⟩
  have h1 := hread [⟨1, "a</ETag></Part><Part><PartNumber>2</PartNumber><ETag>b"⟩] (by decide)
  have h2 := hread [⟨1, "a"⟩, ⟨2, "b"⟩] (by decide)
  rw [hbody, h2] at h1
  revert h1
  decide

end S3Mpart
